import Mathlib

/-!
Verification of the slice index algebra and the distributed-array runtime
of cupyx.distributed (_array.py and array/_elementwise.py).

Machine integers of the source are Python arbitrary-precision integers,
embedded as Lean Int/Nat.  Python floor division and floor modulo agree
with Lean Int division and emod on every call site of the source, because
every divisor there is positive (for positive divisors floor and euclidean
conventions coincide) or the division is exact.
-/

set_option maxRecDepth 4000

/-- A Python slice with all three fields materialized (as produced by
`slice.indices`).  Mirrors the `slice(start, stop, step)` triples that the
index algebra of `_array.py` manipulates. -/
structure Slice where
  start : Int
  stop : Int
  step : Int
deriving DecidableEq, Repr

/-- Clamping of a single nonnegative-or-negative index exactly as CPython
`PySlice_AdjustIndices` does for a positive step. -/
def adjustIndex (i : Int) (length : Nat) : Int :=
  if i < 0 then max (i + length) 0 else min i length

/-- `slice.indices(length)` for a slice whose step is positive (the only
case the source uses: `_slice_intersection` and `_index_for_subslice` are
applied to normalized chunk slices). -/
def Slice.indices (s : Slice) (length : Nat) : Int × Int × Int :=
  (adjustIndex s.start length, adjustIndex s.stop length, s.step)

/-- A chunk slice normalized with respect to an axis of size `length`:
`0 ≤ start < stop ≤ length` and `step ≥ 1` (data model of the spec). -/
def Slice.Normalized (s : Slice) (length : Nat) : Prop :=
  0 ≤ s.start ∧ s.start < s.stop ∧ s.stop ≤ length ∧ 1 ≤ s.step

instance (s : Slice) (length : Nat) : Decidable (s.Normalized length) := by
  unfold Slice.Normalized; infer_instance

/-- Membership of a point in the arithmetic progression denoted by a slice:
`start ≤ i < stop` and `i ≡ start (mod step)`. -/
def Slice.Mem (s : Slice) (i : Int) : Prop :=
  s.start ≤ i ∧ i < s.stop ∧ s.step ∣ (i - s.start)

instance (s : Slice) (i : Int) : Decidable (s.Mem i) := by
  unfold Slice.Mem; infer_instance

/-- Boolean membership test, used by the executable array model. -/
def Slice.containsB (s : Slice) (x : Int) : Bool :=
  s.start ≤ x && x < s.stop && (x - s.start) % s.step == 0

theorem Slice.containsB_iff_mem (s : Slice) (x : Int) :
    s.containsB x = true ↔ s.Mem x := by
  unfold Slice.containsB Slice.Mem
  constructor
  · intro h
    simp only [Bool.and_eq_true, decide_eq_true_eq, beq_iff_eq] at h
    exact ⟨h.1.1, h.1.2, Int.dvd_of_emod_eq_zero h.2⟩
  · rintro ⟨h1, h2, h3⟩
    simp only [Bool.and_eq_true, decide_eq_true_eq, beq_iff_eq]
    exact ⟨⟨h1, h2⟩, Int.emod_eq_zero_of_dvd h3⟩

/-- `_extgcd`'s Euclid loop `while d: ...`, translated with an explicit
fuel bound on the number of iterations so that the recursion is structural
(the loop runs at most `d` times since `d` strictly decreases).  State
`(c, d, x, u)` as in the source; `y, v` are commented out there and
omitted here too. -/
def extgcdLoop : Nat → Nat → Nat → Int → Int → Nat × Int
  | 0, c, _, x, _ => (c, x)
  | fuel + 1, c, d, x, u =>
    if d = 0 then (c, x)
    else extgcdLoop fuel d (c % d) u (x - u * (c / d))

/-- `_extgcd(a, b)`: returns `(g, x)` with `g = gcd(a, b)` and
`a * x ≡ g (mod b)`.  The source assumes `a, b > 0`. -/
def extgcd (a b : Nat) : Nat × Int :=
  extgcdLoop b a b 1 0

/-- `_slice_intersection(a, b, length)`: intersection of two slices as
arithmetic progressions, `none` if disjoint.  Direct translation of the
source; all `//` and `%` of the source have positive divisors or exact
divisions here, so Lean `Int` division/emod coincide with Python floor
semantics. -/
def sliceIntersection (a b : Slice) (length : Nat) : Option Slice :=
  match a.indices length, b.indices length with
  | (a_start, a_stop, a_step), (b_start, b_stop, b_step) =>
    let gx := extgcd a_step.toNat b_step.toNat
    let g : Int := gx.1
    let x : Int := gx.2
    if (b_start - a_start) % g ≠ 0 then none
    else
      -- c_step == lcm(a_step, b_step)
      let c_step := a_step / g * b_step
      let a_skip := x * ((b_start - a_start) / g) % (c_step / a_step)
      let c_start0 := a_start + a_step * a_skip
      let c_start :=
        if c_start0 < b_start then
          c_start0 + ((b_start - c_start0 - 1) / c_step + 1) * c_step
        else c_start0
      let c_stop := min a_stop b_stop
      if c_start < c_stop then some ⟨c_start, c_stop, c_step⟩ else none

/-- `_index_for_subslice(a, sub, length)`: the slice `c` with
`array[a][c] == array[sub]`, assuming `sub ⊆ a`. -/
def indexForSubslice (a sub : Slice) (length : Nat) : Slice :=
  match a.indices length, sub.indices length with
  | (a_start, _a_stop, a_step), (sub_start, sub_stop, sub_step) =>
    let c_start := (sub_start - a_start) / a_step
    -- a_start + a_step * (c_stop - 1) < sub_stop
    let c_stop := (sub_stop - a_start - 1) / a_step + 1
    let c_step := sub_step / a_step
    ⟨c_start, c_stop, c_step⟩

/-- `_index_intersection(a_idx, b_idx, shape)`: dimension-wise slice
intersection; `none` as soon as one dimension is empty. -/
def indexIntersection (aIdx bIdx : List Slice) (shape : List Nat) :
    Option (List Slice) :=
  (List.zipWith3 (fun a b len => sliceIntersection a b len) aIdx bIdx shape).mapM id

/-- `_index_for_subindex(a_idx, sub_idx, shape)`: dimension-wise
`_index_for_subslice`. -/
def indexForSubindex (aIdx subIdx : List Slice) (shape : List Nat) :
    List Slice :=
  List.zipWith3 (fun a sub len => indexForSubslice a sub len) aIdx subIdx shape

-- sanity examples for the division conventions assumed above
example : (-3 : Int) % 2 = 1 := by decide
example : extgcd 6 4 = (2, 1) := by decide
example : sliceIntersection ⟨0, 10, 2⟩ ⟨1, 10, 3⟩ 10 = some ⟨4, 10, 6⟩ := by decide

/-! ### Correctness of `_extgcd` -/

theorem extgcdLoop_fst (fuel : Nat) :
    ∀ c d : Nat, ∀ x u : Int, d ≤ fuel →
      (extgcdLoop fuel c d x u).1 = Nat.gcd c d := by
  induction fuel with
  | zero =>
    intro c d x u hd
    interval_cases d
    simp [extgcdLoop]
  | succ fuel ih =>
    intro c d x u hd
    by_cases h0 : d = 0
    · subst h0; simp [extgcdLoop]
    · have hdpos : 0 < d := Nat.pos_of_ne_zero h0
      have hmod : c % d < d := Nat.mod_lt _ hdpos
      have : extgcdLoop (fuel + 1) c d x u
          = extgcdLoop fuel d (c % d) u (x - u * (c / d)) := by
        simp [extgcdLoop, h0]
      rw [this, ih d (c % d) u (x - u * (c / d)) (by omega)]
      rw [Nat.gcd_comm d (c % d), ← Nat.gcd_rec d c, Nat.gcd_comm d c]

theorem extgcdLoop_bezout (A B : Nat) (fuel : Nat) :
    ∀ c d : Nat, ∀ x u y v : Int, d ≤ fuel →
      (A : Int) * x + B * y = (c : Int) →
      (A : Int) * u + B * v = (d : Int) →
      ∃ w : Int, (A : Int) * (extgcdLoop fuel c d x u).2 + B * w
        = ((extgcdLoop fuel c d x u).1 : Int) := by
  induction fuel with
  | zero =>
    intro c d x u y v hd hc _hd2
    interval_cases d
    exact ⟨y, by simpa [extgcdLoop] using hc⟩
  | succ fuel ih =>
    intro c d x u y v hd hc hd2
    by_cases h0 : d = 0
    · subst h0
      exact ⟨y, by simpa [extgcdLoop] using hc⟩
    · have hdpos : 0 < d := Nat.pos_of_ne_zero h0
      have hmod : c % d < d := Nat.mod_lt _ hdpos
      have hstep : extgcdLoop (fuel + 1) c d x u
          = extgcdLoop fuel d (c % d) u (x - u * (c / d)) := by
        simp [extgcdLoop, h0]
      rw [hstep]
      apply ih d (c % d) u (x - u * ((c : Int) / (d : Int))) v
        (y - v * ((c : Int) / (d : Int))) (by omega) hd2
      have hdiv : (d : Int) * ((c : Int) / (d : Int)) + (c : Int) % (d : Int)
          = (c : Int) := Int.ediv_add_emod _ _
      have hcast : ((c % d : Nat) : Int) = (c : Int) % (d : Int) := by
        push_cast
        rfl
      have hexp : (A : Int) * (x - u * ((c : Int) / (d : Int)))
            + B * (y - v * ((c : Int) / (d : Int)))
          = ((A : Int) * x + B * y)
            - ((A : Int) * u + B * v) * ((c : Int) / (d : Int)) := by
        ring
      rw [hexp, hc, hd2, hcast]
      linarith [hdiv]

/-- `_extgcd(a, b)` returns `(gcd(a, b), x)` with `a*x + b*y = gcd(a, b)`
for some `y` (Bezout), as its docstring states. -/
theorem extgcd_spec (a b : Nat) :
    (extgcd a b).1 = Nat.gcd a b ∧
      ∃ y : Int, (a : Int) * (extgcd a b).2 + b * y = (Nat.gcd a b : Int) := by
  constructor
  · exact extgcdLoop_fst b a b 1 0 le_rfl
  · have h := extgcdLoop_bezout a b b a b 1 0 0 1 le_rfl (by ring) (by ring)
    rw [extgcdLoop_fst b a b 1 0 le_rfl] at h
    exact h

/-! ### Arithmetic characterization of `_slice_intersection` -/

/-- A common element of the two (upward-unbounded) arithmetic progressions
of slices `a` and `b`: congruent to both starts and at least both starts. -/
def CommonElt (a b : Slice) (i : Int) : Prop :=
  a.step ∣ (i - a.start) ∧ b.step ∣ (i - b.start) ∧ max a.start b.start ≤ i

/-- `g` of `_slice_intersection` (named for the proofs). -/
def interGcd (a b : Slice) : Nat := Nat.gcd a.step.toNat b.step.toNat

/-- `c_step` of `_slice_intersection`. -/
def interStep (a b : Slice) : Int := a.step / (interGcd a b : Int) * b.step

/-- `a_skip` of `_slice_intersection`. -/
def interSkip (a b : Slice) : Int :=
  (extgcd a.step.toNat b.step.toNat).2
      * ((b.start - a.start) / (interGcd a b : Int))
    % (interStep a b / a.step)

/-- The unadjusted `c_start` of `_slice_intersection`. -/
def interStart0 (a b : Slice) : Int := a.start + a.step * interSkip a b

/-- The adjusted `c_start` of `_slice_intersection`. -/
def interStart (a b : Slice) : Int :=
  if interStart0 a b < b.start then
    interStart0 a b
      + ((b.start - interStart0 a b - 1) / interStep a b + 1) * interStep a b
  else interStart0 a b

theorem Slice.indices_eq_self (s : Slice) (length : Nat)
    (h0 : 0 ≤ s.start) (h1 : s.start ≤ length)
    (h2 : 0 ≤ s.stop) (h3 : s.stop ≤ length) :
    s.indices length = (s.start, s.stop, s.step) := by
  unfold Slice.indices adjustIndex
  rw [if_neg (by omega), if_neg (by omega), min_eq_left h1, min_eq_left h3]

theorem sliceIntersection_eq (a b : Slice) (length : Nat)
    (ha : a.Normalized length) (hb : b.Normalized length) :
    sliceIntersection a b length =
      if ((interGcd a b : Nat) : Int) ∣ (b.start - a.start) then
        (if interStart a b < min a.stop b.stop then
          some ⟨interStart a b, min a.stop b.stop, interStep a b⟩
        else none)
      else none := by
  obtain ⟨ha0, ha1, ha2, ha3⟩ := ha
  obtain ⟨hb0, hb1, hb2, hb3⟩ := hb
  unfold sliceIntersection
  rw [a.indices_eq_self length ha0 (by omega) (by omega) ha2,
    b.indices_eq_self length hb0 (by omega) (by omega) hb2]
  simp only
  rw [(extgcd_spec a.step.toNat b.step.toNat).1]
  by_cases hdvd : ((interGcd a b : Nat) : Int) ∣ (b.start - a.start)
  · rw [if_pos hdvd, if_neg]
    · rfl
    · simp only [ne_eq, Decidable.not_not]
      exact Int.emod_eq_zero_of_dvd hdvd
  · rw [if_neg hdvd, if_pos]
    simp only [ne_eq]
    intro h
    exact hdvd (Int.dvd_of_emod_eq_zero h)

theorem interGcd_dvd_left (a b : Slice) (hA : 1 ≤ a.step) :
    ((interGcd a b : Nat) : Int) ∣ a.step := by
  have h := Nat.gcd_dvd_left a.step.toNat b.step.toNat
  have := Int.natCast_dvd_natCast.mpr h
  rwa [Int.toNat_of_nonneg (by omega)] at this

theorem interGcd_dvd_right (a b : Slice) (hB : 1 ≤ b.step) :
    ((interGcd a b : Nat) : Int) ∣ b.step := by
  have h := Nat.gcd_dvd_right a.step.toNat b.step.toNat
  have := Int.natCast_dvd_natCast.mpr h
  rwa [Int.toNat_of_nonneg (by omega)] at this

theorem interGcd_pos (a b : Slice) (hA : 1 ≤ a.step) :
    0 < ((interGcd a b : Nat) : Int) := by
  have : 0 < a.step.toNat := by omega
  have := Nat.gcd_pos_of_pos_left b.step.toNat this
  exact_mod_cast this

theorem interStep_eq_mul_left (a b : Slice) (hA : 1 ≤ a.step) (hB : 1 ≤ b.step) :
    interStep a b = a.step * (b.step / (interGcd a b : Int)) := by
  obtain ⟨a2, ha2⟩ := interGcd_dvd_left a b hA
  obtain ⟨b2, hb2⟩ := interGcd_dvd_right a b hB
  have hg : ((interGcd a b : Nat) : Int) ≠ 0 := by
    have := interGcd_pos a b hA; omega
  unfold interStep
  rw [ha2, hb2, Int.mul_ediv_cancel_left _ hg, Int.mul_ediv_cancel_left _ hg]
  ring

theorem interM_pos (a b : Slice) (hA : 1 ≤ a.step) (hB : 1 ≤ b.step) :
    0 < b.step / (interGcd a b : Int) := by
  obtain ⟨b2, hb2⟩ := interGcd_dvd_right a b hB
  have hgpos := interGcd_pos a b hA
  have hg : ((interGcd a b : Nat) : Int) ≠ 0 := by omega
  rw [hb2, Int.mul_ediv_cancel_left _ hg]
  by_contra hle
  push_neg at hle
  have : ((interGcd a b : Nat) : Int) * b2 ≤ 0 :=
    mul_nonpos_of_nonneg_of_nonpos (by omega) hle
  omega

theorem interStep_pos (a b : Slice) (hA : 1 ≤ a.step) (hB : 1 ≤ b.step) :
    0 < interStep a b := by
  rw [interStep_eq_mul_left a b hA hB]
  exact mul_pos (by omega) (interM_pos a b hA hB)

theorem stepA_dvd_interStep (a b : Slice) (hA : 1 ≤ a.step) (hB : 1 ≤ b.step) :
    a.step ∣ interStep a b := by
  rw [interStep_eq_mul_left a b hA hB]
  exact dvd_mul_right _ _

theorem stepB_dvd_interStep (a b : Slice) :
    b.step ∣ interStep a b := by
  unfold interStep
  exact dvd_mul_left _ _

theorem interStep_div_stepA (a b : Slice) (hA : 1 ≤ a.step) (hB : 1 ≤ b.step) :
    interStep a b / a.step = b.step / (interGcd a b : Int) := by
  rw [interStep_eq_mul_left a b hA hB]
  exact Int.mul_ediv_cancel_left _ (by omega)

theorem interSkip_bounds (a b : Slice) (hA : 1 ≤ a.step) (hB : 1 ≤ b.step) :
    0 ≤ interSkip a b ∧ interSkip a b < b.step / (interGcd a b : Int) := by
  have hM := interM_pos a b hA hB
  unfold interSkip
  rw [interStep_div_stepA a b hA hB]
  exact ⟨Int.emod_nonneg _ (by omega), Int.emod_lt_of_pos _ hM⟩

theorem stepA_dvd_interStart0_sub (a b : Slice) :
    a.step ∣ interStart0 a b - a.start := by
  unfold interStart0
  exact ⟨interSkip a b, by ring⟩

theorem stepB_dvd_interStart0_sub (a b : Slice)
    (hA : 1 ≤ a.step) (hB : 1 ≤ b.step)
    (hdvd : ((interGcd a b : Nat) : Int) ∣ (b.start - a.start)) :
    b.step ∣ interStart0 a b - b.start := by
  obtain ⟨hsp, ⟨w, hw⟩⟩ := extgcd_spec a.step.toNat b.step.toNat
  rw [Int.toNat_of_nonneg (show (0:Int) ≤ a.step by omega),
    Int.toNat_of_nonneg (show (0:Int) ≤ b.step by omega)] at hw
  obtain ⟨a2, ha2⟩ := interGcd_dvd_left a b hA
  obtain ⟨b2, hb2⟩ := interGcd_dvd_right a b hB
  have hgpos := interGcd_pos a b hA
  set g : Int := ((interGcd a b : Nat) : Int) with hgdef
  set x : Int := (extgcd a.step.toNat b.step.toNat).2 with hxdef
  set k : Int := (b.start - a.start) / g with hkdef
  have hk : g * k = b.start - a.start := Int.mul_ediv_cancel' hdvd
  set M : Int := interStep a b / a.step with hMdef
  have hM : M = b.step / g := interStep_div_stepA a b hA hB
  have hMb : b.step = g * b2 := hb2
  have hMval : M = b2 := by
    rw [hM, hMb, Int.mul_ediv_cancel_left _ (by omega)]
  set q : Int := x * k / M with hqdef
  have hskip : interSkip a b = x * k - M * q := by
    unfold interSkip
    rw [Int.emod_def]
  have hwg : a.step * x + b.step * w = g := by
    rw [hgdef]
    unfold interGcd
    exact hw
  have hax : a.step * x = g - b.step * w := by linarith [hwg]
  have key : interStart0 a b - b.start
      = -(b.step * (w * k)) - b.step * (a2 * q) := by
    unfold interStart0
    rw [hskip]
    have e1 : a.step * (x * k - M * q)
        = (a.step * x) * k - (a.step * M) * q := by ring
    have e2 : a.step * M = b.step * a2 := by
      rw [hMval, ha2, hMb]; ring
    rw [e1, hax, e2]
    have e3 : (g - b.step * w) * k = g * k - b.step * (w * k) := by ring
    rw [e3, hk]
    ring
  rw [key]
  exact dvd_sub (dvd_neg.mpr (dvd_mul_right _ _)) (dvd_mul_right _ _)

theorem interStart0_range (a b : Slice) (hA : 1 ≤ a.step) (hB : 1 ≤ b.step) :
    a.start ≤ interStart0 a b ∧ interStart0 a b < a.start + interStep a b := by
  obtain ⟨hs0, hs1⟩ := interSkip_bounds a b hA hB
  have h1 : 0 ≤ a.step * interSkip a b := mul_nonneg (by omega) hs0
  have h2 : a.step * interSkip a b < interStep a b := by
    rw [interStep_eq_mul_left a b hA hB]
    exact mul_lt_mul_of_pos_left hs1 (by omega)
  unfold interStart0
  omega

theorem interStep_dvd_interStart_sub (a b : Slice) :
    interStep a b ∣ interStart a b - interStart0 a b := by
  unfold interStart
  by_cases h : interStart0 a b < b.start
  · rw [if_pos h]
    exact ⟨(b.start - interStart0 a b - 1) / interStep a b + 1, by ring⟩
  · rw [if_neg h]
    simp

theorem stepA_dvd_interStart_sub (a b : Slice) (hA : 1 ≤ a.step) (hB : 1 ≤ b.step) :
    a.step ∣ interStart a b - a.start := by
  have h1 := interStep_dvd_interStart_sub a b
  have h2 := stepA_dvd_interStep a b hA hB
  have h3 := stepA_dvd_interStart0_sub a b
  have : interStart a b - a.start
      = (interStart a b - interStart0 a b) + (interStart0 a b - a.start) := by
    ring
  rw [this]
  exact Dvd.dvd.add (h2.trans h1) h3

theorem stepB_dvd_interStart_sub (a b : Slice) (hA : 1 ≤ a.step) (hB : 1 ≤ b.step)
    (hdvd : ((interGcd a b : Nat) : Int) ∣ (b.start - a.start)) :
    b.step ∣ interStart a b - b.start := by
  have h1 := interStep_dvd_interStart_sub a b
  have h2 := stepB_dvd_interStep a b
  have h3 := stepB_dvd_interStart0_sub a b hA hB hdvd
  have : interStart a b - b.start
      = (interStart a b - interStart0 a b) + (interStart0 a b - b.start) := by
    ring
  rw [this]
  exact Dvd.dvd.add (h2.trans h1) h3

theorem interStart_range (a b : Slice) (hA : 1 ≤ a.step) (hB : 1 ≤ b.step) :
    max a.start b.start ≤ interStart a b ∧
      interStart a b < max a.start b.start + interStep a b := by
  obtain ⟨hr0, hr1⟩ := interStart0_range a b hA hB
  have hstep := interStep_pos a b hA hB
  unfold interStart
  by_cases h : interStart0 a b < b.start
  · rw [if_pos h]
    -- ceiling adjustment up to the least lattice point ≥ b.start
    set e : Int := b.start - interStart0 a b - 1 with hedef
    have he : 0 ≤ e := by omega
    have hq0 : 0 ≤ e % interStep a b := Int.emod_nonneg _ (by omega)
    have hq1 : e % interStep a b < interStep a b := Int.emod_lt_of_pos _ hstep
    have hq2 : e % interStep a b = e - interStep a b * (e / interStep a b) :=
      Int.emod_def _ _
    have hmax : max a.start b.start = b.start := by omega
    rw [hmax]
    constructor
    · nlinarith [hq0, hq1, hq2]
    · nlinarith [hq0, hq1, hq2]
  · rw [if_neg h]
    omega

theorem interStep_eq_lcm (a b : Slice) (hA : 1 ≤ a.step) (hB : 1 ≤ b.step) :
    interStep a b = (Int.lcm a.step b.step : Int) := by
  have hgpos := interGcd_pos a b hA
  have hlcm : interGcd a b * Nat.lcm a.step.toNat b.step.toNat
      = a.step.toNat * b.step.toNat := Nat.gcd_mul_lcm _ _
  have hcast : ((interGcd a b : Nat) : Int) * (Nat.lcm a.step.toNat b.step.toNat : Int)
      = a.step * b.step := by
    have := congrArg (fun n : Nat => (n : Int)) hlcm
    push_cast at this
    rwa [Int.toNat_of_nonneg (show (0:Int) ≤ a.step by omega),
      Int.toNat_of_nonneg (show (0:Int) ≤ b.step by omega)] at this
  have hmul : ((interGcd a b : Nat) : Int) * interStep a b = a.step * b.step := by
    obtain ⟨a2, ha2⟩ := interGcd_dvd_left a b hA
    unfold interStep
    rw [ha2, Int.mul_ediv_cancel_left _ (by omega)]
    ring
  have : Int.lcm a.step b.step = Nat.lcm a.step.toNat b.step.toNat := by
    have hnatA : a.step.natAbs = a.step.toNat := by omega
    have hnatB : b.step.natAbs = b.step.toNat := by omega
    unfold Int.lcm
    rw [hnatA, hnatB]
  rw [this]
  have hgne : ((interGcd a b : Nat) : Int) ≠ 0 := by omega
  exact mul_left_cancel₀ hgne (by rw [hmul, hcast])

theorem interGcd_cast_eq (a b : Slice) (hA : 1 ≤ a.step) (hB : 1 ≤ b.step) :
    ((interGcd a b : Nat) : Int) = (Int.gcd a.step b.step : Int) := by
  have hnatA : a.step.natAbs = a.step.toNat := by omega
  have hnatB : b.step.natAbs = b.step.toNat := by omega
  unfold interGcd Int.gcd
  rw [hnatA, hnatB]

theorem interStart_commonElt (a b : Slice) (hA : 1 ≤ a.step) (hB : 1 ≤ b.step)
    (hdvd : ((interGcd a b : Nat) : Int) ∣ (b.start - a.start)) :
    CommonElt a b (interStart a b) :=
  ⟨stepA_dvd_interStart_sub a b hA hB, stepB_dvd_interStart_sub a b hA hB hdvd,
    (interStart_range a b hA hB).1⟩

theorem interStep_dvd_of_commonElts (a b : Slice) (hA : 1 ≤ a.step)
    (hB : 1 ≤ b.step) (i j : Int)
    (hi1 : a.step ∣ i - a.start) (hi2 : b.step ∣ i - b.start)
    (hj1 : a.step ∣ j - a.start) (hj2 : b.step ∣ j - b.start) :
    interStep a b ∣ i - j := by
  rw [interStep_eq_lcm a b hA hB]
  have h1 : a.step ∣ i - j := by
    have := dvd_sub hi1 hj1
    simpa using this
  have h2 : b.step ∣ i - j := by
    have := dvd_sub hi2 hj2
    simpa using this
  exact Int.lcm_dvd h1 h2

theorem interStart_least (a b : Slice) (hA : 1 ≤ a.step) (hB : 1 ≤ b.step)
    (hdvd : ((interGcd a b : Nat) : Int) ∣ (b.start - a.start))
    (i : Int) (hi : CommonElt a b i) : interStart a b ≤ i := by
  obtain ⟨hi1, hi2, hi3⟩ := hi
  have hc := interStart_commonElt a b hA hB hdvd
  have hdd : interStep a b ∣ i - interStart a b :=
    interStep_dvd_of_commonElts a b hA hB i (interStart a b) hi1 hi2 hc.1 hc.2.1
  obtain ⟨m, hm⟩ := hdd
  have hrange := interStart_range a b hA hB
  have hstep := interStep_pos a b hA hB
  -- i ≥ max > interStart - interStep, so the multiple m is nonnegative
  have hgt : interStep a b * m > -(interStep a b) := by omega
  have hm0 : 0 ≤ m := by
    by_contra hneg
    push_neg at hneg
    have : m ≤ -1 := by omega
    have : interStep a b * m ≤ interStep a b * (-1) :=
      mul_le_mul_of_nonneg_left this (by omega)
    omega
  have : 0 ≤ interStep a b * m := mul_nonneg (by omega) hm0
  omega

/-- C1: `_slice_intersection(a, b, length)` on slices normalized over
`[0, length)` returns exactly the set-intersection of the two arithmetic
progressions: the result (when nonempty) has step `lcm(a.step, b.step)`,
stop `min(a.stop, b.stop)`, start the least common element of the two
progressions (which is `≥ max(a.start, b.start)`), and its members are
exactly the common members; it returns `none` exactly when
`(b.start - a.start) mod gcd(a.step, b.step) ≠ 0` or no common element
lies below `min(a.stop, b.stop)`. -/
theorem sliceIntersection_spec (a b : Slice) (length : Nat)
    (ha : a.Normalized length) (hb : b.Normalized length) :
    (∀ c : Slice, sliceIntersection a b length = some c →
        c.step = (Int.lcm a.step b.step : Int) ∧
        c.stop = min a.stop b.stop ∧
        CommonElt a b c.start ∧
        (∀ i : Int, CommonElt a b i → c.start ≤ i) ∧
        (∀ i : Int, c.Mem i ↔ (a.Mem i ∧ b.Mem i))) ∧
    (sliceIntersection a b length = none ↔
      (¬ (Int.gcd a.step b.step : Int) ∣ (b.start - a.start)
        ∨ ∀ i : Int, ¬ (CommonElt a b i ∧ i < min a.stop b.stop))) := by
  have hA : 1 ≤ a.step := ha.2.2.2
  have hB : 1 ≤ b.step := hb.2.2.2
  have heq := sliceIntersection_eq a b length ha hb
  rw [← interGcd_cast_eq a b hA hB]
  constructor
  · intro c hc
    rw [heq] at hc
    by_cases hdvd : ((interGcd a b : Nat) : Int) ∣ (b.start - a.start)
    · rw [if_pos hdvd] at hc
      by_cases hlt : interStart a b < min a.stop b.stop
      · rw [if_pos hlt] at hc
        injection hc with hc
        subst hc
        have hcomm := interStart_commonElt a b hA hB hdvd
        have hleast := interStart_least a b hA hB hdvd
        refine ⟨(interStep_eq_lcm a b hA hB).symm ▸ rfl, rfl, hcomm, hleast, ?_⟩
        intro i
        constructor
        · rintro ⟨h1, h2, h3⟩
          simp only at h1 h2 h3
          have hstepdvdA : a.step ∣ i - a.start := by
            have e : i - a.start = (i - interStart a b)
                + (interStart a b - a.start) := by ring
            rw [e]
            exact dvd_add ((stepA_dvd_interStep a b hA hB).trans h3) hcomm.1
          have hstepdvdB : b.step ∣ i - b.start := by
            have e : i - b.start = (i - interStart a b)
                + (interStart a b - b.start) := by ring
            rw [e]
            exact dvd_add ((stepB_dvd_interStep a b).trans h3) hcomm.2.1
          have hmax := hcomm.2.2
          exact ⟨⟨by omega, by omega, hstepdvdA⟩, ⟨by omega, by omega, hstepdvdB⟩⟩
        · rintro ⟨⟨ha1, ha2, ha3⟩, ⟨hb1, hb2, hb3⟩⟩
          have hce : CommonElt a b i := ⟨ha3, hb3, by omega⟩
          refine ⟨hleast i hce, by simp only; omega, ?_⟩
          simp only
          exact interStep_dvd_of_commonElts a b hA hB i (interStart a b)
            ha3 hb3 hcomm.1 hcomm.2.1
      · rw [if_neg hlt] at hc
        exact absurd hc (by simp)
    · rw [if_neg hdvd] at hc
      exact absurd hc (by simp)
  · rw [heq]
    by_cases hdvd : ((interGcd a b : Nat) : Int) ∣ (b.start - a.start)
    · rw [if_pos hdvd]
      by_cases hlt : interStart a b < min a.stop b.stop
      · rw [if_pos hlt]
        constructor
        · intro h
          exact absurd h (by simp)
        · intro h
          rcases h with hnd | hall
          · exact absurd hdvd hnd
          · exact absurd ⟨interStart_commonElt a b hA hB hdvd, hlt⟩
              (hall (interStart a b))
      · rw [if_neg hlt]
        simp only [true_iff]
        right
        rintro i ⟨hce, hib⟩
        have := interStart_least a b hA hB hdvd i hce
        omega
    · rw [if_neg hdvd]
      simp only [true_iff]
      left
      exact hdvd

theorem sliceIntersection_spec_witness :
    ((Slice.mk 0 10 2).Normalized 10 ∧ (Slice.mk 1 10 3).Normalized 10) ∧
    ((∀ c : Slice, sliceIntersection ⟨0, 10, 2⟩ ⟨1, 10, 3⟩ 10 = some c →
        c.step = (Int.lcm (Slice.mk 0 10 2).step (Slice.mk 1 10 3).step : Int) ∧
        c.stop = min (Slice.mk 0 10 2).stop (Slice.mk 1 10 3).stop ∧
        CommonElt ⟨0, 10, 2⟩ ⟨1, 10, 3⟩ c.start ∧
        (∀ i : Int, CommonElt ⟨0, 10, 2⟩ ⟨1, 10, 3⟩ i → c.start ≤ i) ∧
        (∀ i : Int, c.Mem i ↔
          ((Slice.mk 0 10 2).Mem i ∧ (Slice.mk 1 10 3).Mem i))) ∧
      (sliceIntersection ⟨0, 10, 2⟩ ⟨1, 10, 3⟩ 10 = none ↔
        (¬ (Int.gcd (Slice.mk 0 10 2).step (Slice.mk 1 10 3).step : Int)
            ∣ ((Slice.mk 1 10 3).start - (Slice.mk 0 10 2).start)
          ∨ ∀ i : Int, ¬ (CommonElt ⟨0, 10, 2⟩ ⟨1, 10, 3⟩ i ∧
              i < min (Slice.mk 0 10 2).stop (Slice.mk 1 10 3).stop)))) :=
  ⟨⟨by decide, by decide⟩,
    sliceIntersection_spec ⟨0, 10, 2⟩ ⟨1, 10, 3⟩ 10 (by decide) (by decide)⟩

/-! ### C7: commutativity of `_index_intersection` -/

theorem commonElt_comm (a b : Slice) (i : Int) :
    CommonElt a b i ↔ CommonElt b a i := by
  unfold CommonElt
  constructor
  · rintro ⟨h1, h2, h3⟩
    exact ⟨h2, h1, by omega⟩
  · rintro ⟨h1, h2, h3⟩
    exact ⟨h2, h1, by omega⟩

theorem sliceIntersection_comm (a b : Slice) (length : Nat)
    (ha : a.Normalized length) (hb : b.Normalized length) :
    sliceIntersection a b length = sliceIntersection b a length := by
  obtain ⟨hsome1, hnone1⟩ := sliceIntersection_spec a b length ha hb
  obtain ⟨hsome2, hnone2⟩ := sliceIntersection_spec b a length hb ha
  have hgcd : ((Int.gcd a.step b.step : Nat) : Int) ∣ (b.start - a.start)
      ↔ ((Int.gcd b.step a.step : Nat) : Int) ∣ (a.start - b.start) := by
    rw [Int.gcd_comm]
    constructor
    · intro h
      have := h.neg_right
      simpa using this
    · intro h
      have := h.neg_right
      simpa using this
  have hnoneIff : (sliceIntersection a b length = none)
      ↔ (sliceIntersection b a length = none) := by
    rw [hnone1, hnone2]
    constructor
    · rintro (h | h)
      · exact Or.inl (fun hd => h (hgcd.mpr hd))
      · refine Or.inr (fun i hi => h i ?_)
        exact ⟨(commonElt_comm a b i).mpr hi.1, by rw [min_comm]; exact hi.2⟩
    · rintro (h | h)
      · exact Or.inl (fun hd => h (hgcd.mp hd))
      · refine Or.inr (fun i hi => h i ?_)
        exact ⟨(commonElt_comm a b i).mp hi.1, by rw [min_comm]; exact hi.2⟩
  cases h1 : sliceIntersection a b length with
  | none =>
    rw [hnoneIff] at h1
    exact h1.symm
  | some c1 =>
    cases h2 : sliceIntersection b a length with
    | none =>
      rw [← hnoneIff] at h2
      rw [h1] at h2
      exact absurd h2 (by simp)
    | some c2 =>
      obtain ⟨hstep1, hstop1, hcomm1, hleast1, _⟩ := hsome1 c1 h1
      obtain ⟨hstep2, hstop2, hcomm2, hleast2, _⟩ := hsome2 c2 h2
      have hstart : c1.start = c2.start :=
        le_antisymm (hleast1 c2.start ((commonElt_comm a b c2.start).mpr hcomm2))
          (hleast2 c1.start ((commonElt_comm a b c1.start).mp hcomm1))
      have hstop : c1.stop = c2.stop := by
        rw [hstop1, hstop2, min_comm]
      have hstep : c1.step = c2.step := by
        rw [hstep1, hstep2, Int.lcm_comm]
      cases c1
      cases c2
      simp only [Option.some.injEq, Slice.mk.injEq]
      exact ⟨hstart, hstop, hstep⟩

/-- A chunk index normalized against a shape, dimension by dimension. -/
def IdxNormalized (idx : List Slice) (shape : List Nat) : Prop :=
  idx.length = shape.length ∧ ∀ p ∈ idx.zip shape, Slice.Normalized p.1 p.2

instance (idx : List Slice) (shape : List Nat) :
    Decidable (IdxNormalized idx shape) := by
  unfold IdxNormalized; infer_instance

theorem idxNormalized_cons (s : Slice) (idx : List Slice) (d : Nat)
    (shape : List Nat) :
    IdxNormalized (s :: idx) (d :: shape)
      ↔ s.Normalized d ∧ IdxNormalized idx shape := by
  unfold IdxNormalized
  simp only [List.length_cons, List.zip_cons_cons, List.mem_cons]
  constructor
  · rintro ⟨hlen, hall⟩
    exact ⟨hall (s, d) (Or.inl rfl),
      by omega, fun p hp => hall p (Or.inr hp)⟩
  · rintro ⟨hs, hlen, hall⟩
    refine ⟨by omega, ?_⟩
    rintro p (rfl | hp)
    · exact hs
    · exact hall p hp

/-- C7: `_index_intersection(A, B, shape)` is commutative in its two chunk
indices: the emptiness outcome and every returned slice coincide. -/
theorem indexIntersection_comm (A B : List Slice) (shape : List Nat)
    (hA : IdxNormalized A shape) (hB : IdxNormalized B shape) :
    indexIntersection A B shape = indexIntersection B A shape := by
  induction A generalizing B shape with
  | nil =>
    cases B with
    | nil => rfl
    | cons b B2 =>
      cases shape with
      | nil => rfl
      | cons d sh2 => exact absurd hA.1 (by simp)
  | cons a A2 ih =>
    cases shape with
    | nil => exact absurd hA.1 (by simp)
    | cons d sh2 =>
      cases B with
      | nil => exact absurd hB.1 (by simp)
      | cons b B2 =>
        obtain ⟨hna, hA2⟩ := (idxNormalized_cons a A2 d sh2).mp hA
        obtain ⟨hnb, hB2⟩ := (idxNormalized_cons b B2 d sh2).mp hB
        unfold indexIntersection
        show (sliceIntersection a b d :: List.zipWith3 _ A2 B2 sh2).mapM id
          = (sliceIntersection b a d :: List.zipWith3 _ B2 A2 sh2).mapM id
        rw [List.mapM_cons, List.mapM_cons,
          sliceIntersection_comm a b d hna hnb]
        have htail := ih B2 sh2 hA2 hB2
        unfold indexIntersection at htail
        rw [htail]

theorem indexIntersection_comm_witness :
    (IdxNormalized [Slice.mk 0 3 1] [4] ∧ IdxNormalized [Slice.mk 1 4 2] [4]) ∧
      indexIntersection [Slice.mk 0 3 1] [Slice.mk 1 4 2] [4]
        = indexIntersection [Slice.mk 1 4 2] [Slice.mk 0 3 1] [4] :=
  ⟨⟨by decide, by decide⟩,
    indexIntersection_comm [Slice.mk 0 3 1] [Slice.mk 1 4 2] [4]
      (by decide) (by decide)⟩

/-! ### C5: `_index_for_subslice` -/

/-- Number of elements a slice `(start, stop, step)` with positive step
selects from a long-enough buffer (`len(range(start, stop, step))`). -/
def sliceCount (start stop step : Int) : Nat :=
  if start < stop then ((stop - start - 1) / step + 1).toNat else 0

/-- Python list slicing `l[s]` (for a positive-step slice): normalize via
`s.indices(len(l))`, then take elements `start, start+step, ...` below
`stop`. -/
def applySlice (l : List Int) (s : Slice) : List Int :=
  match s.indices l.length with
  | (start, stop, step) =>
    (List.range (sliceCount start stop step)).map
      (fun (t : Nat) => l.getD (start + step * (t : Int)).toNat 0)

theorem ediv_ediv_of_nonneg (a b c : Int) (_ha : 0 ≤ a) (hb : 0 < b)
    (hc : 0 < c) : a / b / c = a / (b * c) := by
  have hbc : 0 < b * c := mul_pos hb hc
  have h2 := Int.ediv_add_emod (a / b) c
  have hr1a := Int.emod_nonneg a (show b ≠ 0 by omega)
  have hr1b := Int.emod_lt_of_pos a hb
  have hr2a := Int.emod_nonneg (a / b) (show c ≠ 0 by omega)
  have hr2b := Int.emod_lt_of_pos (a / b) hc
  set q2 : Int := a / b / c with hq2
  have key : a = b * c * q2 + (b * ((a / b) % c) + a % b) := by
    have h1 := Int.ediv_add_emod a b
    have e : b * (a / b) = b * (c * q2 + (a / b) % c) := by rw [h2]
    have e2 : b * (c * q2 + (a / b) % c)
        = b * c * q2 + b * ((a / b) % c) := by ring
    linarith [h1, e, e2]
  have hrest0 : 0 ≤ b * ((a / b) % c) + a % b :=
    add_nonneg (mul_nonneg hb.le hr2a) hr1a
  have hrestlt : b * ((a / b) % c) + a % b < b * c := by
    have h3 : b * ((a / b) % c) ≤ b * (c - 1) :=
      mul_le_mul_of_nonneg_left (by omega) hb.le
    have h4 : b * (c - 1) = b * c - b := by ring
    linarith [h3, h4, hr1b]
  have hle : q2 ≤ a / (b * c) := by
    rw [Int.le_ediv_iff_mul_le hbc]
    have e : q2 * (b * c) = b * c * q2 := by ring
    linarith [key, hrest0, e]
  have hlt : a / (b * c) < q2 + 1 := by
    rw [Int.ediv_lt_iff_lt_mul hbc]
    have e2 : (q2 + 1) * (b * c) = b * c * q2 + b * c := by ring
    linarith [key, hrestlt, e2]
  omega

theorem rangeMap_getD (n : Nat) (f : Nat → Int) (j : Nat) (d : Int) :
    ((List.range n).map f).getD j d = if j < n then f j else d := by
  rw [List.getD_eq_getElem?_getD, List.getElem?_map]
  by_cases h : j < n
  · rw [List.getElem?_range h]
    simp [h]
  · rw [List.getElem?_eq_none (by simpa using h)]
    simp [h]

theorem applySlice_normalized (l : List Int) (s : Slice)
    (hs : s.Normalized l.length) :
    applySlice l s = (List.range (sliceCount s.start s.stop s.step)).map
      (fun (t : Nat) => l.getD (s.start + s.step * (t : Int)).toNat 0) := by
  obtain ⟨h0, h1, h2, h3⟩ := hs
  unfold applySlice
  rw [s.indices_eq_self l.length h0 (by omega) (by omega) h2]

/-- C5: the slice `c` returned by `_index_for_subslice(outer, sub, length)`
has the contract fields `c.start = (sub.start - outer.start) / outer.step`,
`c.stop = (sub.stop - outer.start - 1) / outer.step + 1`,
`c.step = sub.step / outer.step`, and composing it after `outer` visits
exactly the elements of `sub` in order: `array[outer][c] == array[sub]`
for every buffer of the given length.  `sub ⊆ outer` as arithmetic
progressions: same bounds and `outer.step` divides `sub.step` and
`sub.start - outer.start`. -/
theorem indexForSubslice_spec (outer sub : Slice) (length : Nat)
    (houter : outer.Normalized length) (hsub : sub.Normalized length)
    (hstart : outer.start ≤ sub.start) (hstop : sub.stop ≤ outer.stop)
    (hdstep : outer.step ∣ sub.step)
    (hdstart : outer.step ∣ (sub.start - outer.start)) :
    (indexForSubslice outer sub length).start
        = (sub.start - outer.start) / outer.step ∧
      (indexForSubslice outer sub length).step = sub.step / outer.step ∧
      (indexForSubslice outer sub length).stop
        = (sub.stop - outer.start - 1) / outer.step + 1 ∧
      ∀ arr : List Int, arr.length = length →
        applySlice (applySlice arr outer) (indexForSubslice outer sub length)
          = applySlice arr sub := by
  obtain ⟨ho0, ho1, ho2, ho3⟩ := houter
  obtain ⟨hs0, hs1, hs2, hs3⟩ := hsub
  have hC : indexForSubslice outer sub length
      = ⟨(sub.start - outer.start) / outer.step,
          (sub.stop - outer.start - 1) / outer.step + 1,
          sub.step / outer.step⟩ := by
    unfold indexForSubslice
    rw [outer.indices_eq_self length ho0 (by omega) (by omega) ho2,
      sub.indices_eq_self length hs0 (by omega) (by omega) hs2]
  refine ⟨by rw [hC], by rw [hC], by rw [hC], ?_⟩
  intro arr harr
  -- notation: S = outer.step, sub.start - outer.start = S * p, sub.step = S * q
  obtain ⟨p, hp⟩ := hdstart
  obtain ⟨q, hq⟩ := hdstep
  have hSpos : 0 < outer.step := by omega
  have hp0 : 0 ≤ p := by nlinarith [hp, hstart, hs0]
  have hq1 : 1 ≤ q := by nlinarith [hq, hs3]
  have hcs : (sub.start - outer.start) / outer.step = p := by
    rw [hp, Int.mul_ediv_cancel_left _ (by omega)]
  have hcq : sub.step / outer.step = q := by
    rw [hq, Int.mul_ediv_cancel_left _ (by omega)]
  set D : Int := sub.stop - sub.start with hD
  have hD1 : 1 ≤ D := by omega
  have hcstop : (sub.stop - outer.start - 1) / outer.step
      = (D - 1) / outer.step + p := by
    have : sub.stop - outer.start - 1 = (D - 1) + p * outer.step := by
      rw [hD]; linarith [hp]
    rw [this, Int.add_mul_ediv_right _ _ (by omega)]
  -- counts agree
  have hdivdiv : (D - 1) / outer.step / q = (D - 1) / (outer.step * q) :=
    ediv_ediv_of_nonneg (D - 1) outer.step q (by omega) (by omega) (by omega)
  have hdivD_nonneg : 0 ≤ (D - 1) / outer.step :=
    Int.ediv_nonneg (by omega) (by omega)
  have hcount : sliceCount ((sub.start - outer.start) / outer.step)
        ((sub.stop - outer.start - 1) / outer.step + 1)
        (sub.step / outer.step)
      = sliceCount sub.start sub.stop sub.step := by
    unfold sliceCount
    rw [hcs, hcq, hcstop, if_pos (by omega), if_pos (by omega)]
    have e1 : (D - 1) / outer.step + p + 1 - p - 1 = (D - 1) / outer.step := by
      ring
    have e2 : sub.stop - sub.start - 1 = D - 1 := by omega
    rw [e1, e2, hdivdiv, hq]
  have harr2 : sub.Normalized arr.length := by
    rw [harr]; exact ⟨hs0, hs1, hs2, hs3⟩
  have houter2 : outer.Normalized arr.length := by
    rw [harr]; exact ⟨ho0, ho1, ho2, ho3⟩
  rw [applySlice_normalized arr sub harr2, applySlice_normalized arr outer houter2]
  set N0 : Nat := sliceCount outer.start outer.stop outer.step with hN0
  set L0 : List Int := (List.range N0).map
    (fun (t : Nat) => arr.getD (outer.start + outer.step * (t : Int)).toNat 0)
    with hL0
  have hL0len : L0.length = N0 := by
    rw [hL0]; simp
  have hdivO_nonneg : 0 ≤ (outer.stop - outer.start - 1) / outer.step :=
    Int.ediv_nonneg (by omega) (by omega)
  have hN0int : (N0 : Int) = (outer.stop - outer.start - 1) / outer.step + 1 := by
    rw [hN0]; unfold sliceCount
    rw [if_pos ho1]
    omega
  have hdivle : (sub.stop - outer.start - 1) / outer.step
      ≤ (outer.stop - outer.start - 1) / outer.step :=
    Int.ediv_le_ediv hSpos (by omega)
  have hCnorm : (Slice.mk ((sub.start - outer.start) / outer.step)
      ((sub.stop - outer.start - 1) / outer.step + 1)
      (sub.step / outer.step)).Normalized L0.length := by
    unfold Slice.Normalized
    dsimp only
    rw [hL0len]
    refine ⟨by rw [hcs]; exact hp0, ?_, ?_, by rw [hcq]; omega⟩
    · rw [hcs, hcstop]
      omega
    · rw [hcstop]
      omega
  rw [hC, applySlice_normalized L0 _ hCnorm]
  simp only
  rw [hcount]
  apply List.map_congr_left
  intro t ht
  rw [List.mem_range] at ht
  have htcount : sliceCount sub.start sub.stop sub.step
      = ((D - 1) / (outer.step * q) + 1).toNat := by
    unfold sliceCount
    rw [if_pos (by omega), ← hq, hD]
  have hSq : 0 < outer.step * q := mul_pos (by omega) (by omega)
  have hdivDq_nonneg : 0 ≤ (D - 1) / (outer.step * q) :=
    Int.ediv_nonneg (by omega) (by omega)
  have ht2 : (t : Int) ≤ (D - 1) / (outer.step * q) := by
    rw [htcount] at ht
    omega
  have hmod1 := Int.emod_nonneg (D - 1) (show outer.step * q ≠ 0 by omega)
  have hmod2 := Int.emod_def (D - 1) (outer.step * q)
  have hmul_le : outer.step * q * (t : Int) ≤ D - 1 := by
    have h4 : outer.step * q * (t : Int)
        ≤ outer.step * q * ((D - 1) / (outer.step * q)) :=
      mul_le_mul_of_nonneg_left ht2 (by omega)
    linarith [hmod1, hmod2, h4]
  rw [hcs, hcq]
  set w : Int := p + q * (t : Int) with hw
  have hqt_nonneg : 0 ≤ q * (t : Int) := mul_nonneg (by omega) (by omega)
  have hw_nonneg : 0 ≤ w := by omega
  have hwbound : w * outer.step ≤ outer.stop - outer.start - 1 := by
    have e1 : w * outer.step = outer.step * p + outer.step * q * (t : Int) := by
      rw [hw]; ring
    have e2 : outer.step * p = sub.start - outer.start := hp.symm
    have : w * outer.step ≤ (sub.start - outer.start) + (D - 1) := by
      rw [e1, e2]
      linarith [hmul_le]
    omega
  have hwdiv : w ≤ (outer.stop - outer.start - 1) / outer.step :=
    (Int.le_ediv_iff_mul_le hSpos).mpr hwbound
  set j : Nat := w.toNat with hj
  have hjlt : j < N0 := by omega
  have hjw : (j : Int) = w := Int.toNat_of_nonneg hw_nonneg
  rw [hL0, rangeMap_getD N0 _ j 0, if_pos hjlt]
  have hidx : outer.start + outer.step * (j : Int)
      = sub.start + sub.step * (t : Int) := by
    rw [hjw, hw, hq]
    have : outer.step * (p + q * (t : Int))
        = outer.step * p + outer.step * q * (t : Int) := by ring
    rw [this, ← hp]
    ring
  rw [hidx]

theorem indexForSubslice_spec_witness :
    ((Slice.mk 0 10 2).Normalized 10 ∧ (Slice.mk 2 9 4).Normalized 10 ∧
      (Slice.mk 0 10 2).start ≤ (Slice.mk 2 9 4).start ∧
      (Slice.mk 2 9 4).stop ≤ (Slice.mk 0 10 2).stop ∧
      (Slice.mk 0 10 2).step ∣ (Slice.mk 2 9 4).step ∧
      (Slice.mk 0 10 2).step
        ∣ ((Slice.mk 2 9 4).start - (Slice.mk 0 10 2).start)) ∧
    ((indexForSubslice ⟨0, 10, 2⟩ ⟨2, 9, 4⟩ 10).start
        = ((Slice.mk 2 9 4).start - (Slice.mk 0 10 2).start)
          / (Slice.mk 0 10 2).step ∧
      (indexForSubslice ⟨0, 10, 2⟩ ⟨2, 9, 4⟩ 10).step
        = (Slice.mk 2 9 4).step / (Slice.mk 0 10 2).step ∧
      (indexForSubslice ⟨0, 10, 2⟩ ⟨2, 9, 4⟩ 10).stop
        = ((Slice.mk 2 9 4).stop - (Slice.mk 0 10 2).start - 1)
          / (Slice.mk 0 10 2).step + 1 ∧
      ∀ arr : List Int, arr.length = 10 →
        applySlice (applySlice arr ⟨0, 10, 2⟩)
            (indexForSubslice ⟨0, 10, 2⟩ ⟨2, 9, 4⟩ 10)
          = applySlice arr ⟨2, 9, 4⟩) :=
  ⟨⟨by decide, by decide, by decide, by decide, ⟨2, by decide⟩, ⟨1, by decide⟩⟩,
    indexForSubslice_spec ⟨0, 10, 2⟩ ⟨2, 9, 4⟩ 10 (by decide) (by decide)
      (by decide) (by decide) ⟨2, by decide⟩ ⟨1, by decide⟩⟩

/-! ### Executable model of n-dimensional buffers and the chunk operations -/

/-- An n-dimensional buffer, modelled as a total function from integer
coordinate vectors to values.  A buffer of shape `s` is only ever observed
at coordinates within `s`; a chunk buffer only at its chunk-local
coordinates. -/
abbrev Buf := List Int → Int

/-- Membership of a coordinate vector in the region selected by a chunk
index (dimension-wise membership in each slice, lengths must agree). -/
def memIdx : List Slice → List Int → Bool
  | [], [] => true
  | s :: idx, x :: c => s.containsB x && memIdx idx c
  | _, _ => false

/-- Global axis coordinate → chunk-local coordinate under a slice. -/
def Slice.toLocal (s : Slice) (x : Int) : Int := (x - s.start) / s.step

/-- Chunk-local axis coordinate → global coordinate under a slice. -/
def Slice.toGlobal (s : Slice) (j : Int) : Int := s.start + s.step * j

def toLocalIdx (idx : List Slice) (c : List Int) : List Int :=
  List.zipWith Slice.toLocal idx c

def toGlobalIdx (idx : List Slice) (c : List Int) : List Int :=
  List.zipWith Slice.toGlobal idx c

/-- NumPy basic-slicing assignment `A[idx] = B`, with `B` indexed by
chunk-local coordinates. -/
def setSlices (A : Buf) (idx : List Slice) (B : Buf) : Buf :=
  fun c => if memIdx idx c then B (toLocalIdx idx c) else A c

/-- NumPy accumulation `A[idx] += B`. -/
def addSlices (A : Buf) (idx : List Slice) (B : Buf) : Buf :=
  fun c => if memIdx idx c then A c + B (toLocalIdx idx c) else A c

/-- NumPy basic-slicing read `A[idx]`, as a chunk-shaped buffer. -/
def getSlices (A : Buf) (idx : List Slice) : Buf :=
  fun j => A (toGlobalIdx idx j)

/-- Coordinates lying inside a shape. -/
def inShape : List Nat → List Int → Bool
  | [], [] => true
  | d :: shape, x :: c => (0 ≤ x && x < (d : Int)) && inShape shape c
  | _, _ => false

/-- `_DistributedArray._write_view_to_view(src, dst, dst_idx)`: value
semantics of `dst[dst_idx] = src` (the source's branches only manage
device placement). -/
def writeViewToView (srcArray : Buf) (dstArray : Buf)
    (dstIdx : List Slice) : Buf :=
  setSlices dstArray dstIdx srcArray

/-- `_DistributedArray._apply_and_update_chunks`: fold the overlap of
`src_chunk` into `dst_chunk` under `func` and reset the overlap inside
`src_chunk` to `identity` (when not `None`).  Returns the updated
`(src_chunk, dst_chunk)`. -/
def applyAndUpdateChunks (func : Int → Int → Int) (identity : Option Int)
    (shape : List Nat) (srcChunk : Buf) (srcIdx : List Slice)
    (dstChunk : Buf) (dstIdx : List Slice) : Buf × Buf :=
  match indexIntersection srcIdx dstIdx shape with
  | none => (srcChunk, dstChunk)
  | some intersection =>
    let srcNewIdx := indexForSubindex srcIdx intersection shape
    let dstNewIdx := indexForSubindex dstIdx intersection shape
    let srcChunkCopied := getSlices srcChunk srcNewIdx
    let dstChunk2 := setSlices dstChunk dstNewIdx
      (fun j => func (srcChunkCopied j) (getSlices dstChunk dstNewIdx j))
    let srcChunk2 := match identity with
      | some e => setSlices srcChunk srcNewIdx (fun _ => e)
      | none => srcChunk
    (srcChunk2, dstChunk2)

/-- `_DistributedArray._send_intersection`. -/
def sendIntersection (shape : List Nat) (srcChunk : Buf)
    (srcIdx : List Slice) (dstChunk : Buf) (dstIdx : List Slice) : Buf :=
  match indexIntersection srcIdx dstIdx shape with
  | none => dstChunk
  | some intersection =>
    let srcNewIdx := indexForSubindex srcIdx intersection shape
    let dstNewIdx := indexForSubindex dstIdx intersection shape
    writeViewToView (getSlices srcChunk srcNewIdx) dstChunk dstNewIdx

/-- `_DistributedArray._set_zero_on_intersection`. -/
def setZeroOnIntersection (shape : List Nat) (aChunk : Buf)
    (aIdx bIdx : List Slice) : Buf :=
  match indexIntersection aIdx bIdx shape with
  | none => aChunk
  | some intersection =>
    setSlices aChunk (indexForSubindex aIdx intersection shape) (fun _ => 0)

/-! ### Bridge lemmas between chunk-local and global coordinates -/

theorem bool_eq_of_iff {a b : Bool} (h : a = true ↔ b = true) : a = b := by
  cases a <;> cases b <;> simp_all

theorem one_le_right_of_mul (S q : Int) (hS : 0 ≤ S) (h : 1 ≤ S * q) :
    1 ≤ q := by
  by_contra hq
  push_neg at hq
  nlinarith

theorem Slice.toGlobal_toLocal (s : Slice) (x : Int) (h1 : 1 ≤ s.step)
    (h2 : s.step ∣ x - s.start) : s.toGlobal (s.toLocal x) = x := by
  obtain ⟨m, hm⟩ := h2
  unfold Slice.toGlobal Slice.toLocal
  rw [hm, Int.mul_ediv_cancel_left _ (by omega)]
  omega

theorem Slice.toLocal_toGlobal (s : Slice) (j : Int) (h1 : 1 ≤ s.step) :
    s.toLocal (s.toGlobal j) = j := by
  unfold Slice.toGlobal Slice.toLocal
  have : s.start + s.step * j - s.start = s.step * j := by ring
  rw [this, Int.mul_ediv_cancel_left _ (by omega)]

/-- `_index_for_subslice` on already-normalized inputs, in closed form. -/
theorem indexForSubslice_eq (a sub : Slice) (length : Nat)
    (ha : a.Normalized length) (hsub : sub.Normalized length) :
    indexForSubslice a sub length
      = ⟨(sub.start - a.start) / a.step,
          (sub.stop - a.start - 1) / a.step + 1,
          sub.step / a.step⟩ := by
  obtain ⟨ha0, ha1, ha2, ha3⟩ := ha
  obtain ⟨hs0, hs1, hs2, hs3⟩ := hsub
  unfold indexForSubslice
  rw [a.indices_eq_self length ha0 (by omega) (by omega) ha2,
    sub.indices_eq_self length hs0 (by omega) (by omega) hs2]

theorem indexForSubslice_containsB (a sub : Slice) (length : Nat)
    (ha : a.Normalized length) (hsub : sub.Normalized length)
    (hds : a.step ∣ sub.step) (hd0 : a.step ∣ sub.start - a.start)
    (j : Int) :
    (indexForSubslice a sub length).containsB j
      = sub.containsB (a.toGlobal j) := by
  rw [indexForSubslice_eq a sub length ha hsub]
  obtain ⟨p, hp⟩ := hd0
  obtain ⟨q, hq⟩ := hds
  have hS : 1 ≤ a.step := ha.2.2.2
  have hq1 : 1 ≤ q := one_le_right_of_mul a.step q (by omega)
    (by rw [← hq]; exact hsub.2.2.2)
  have hcs : (sub.start - a.start) / a.step = p := by
    rw [hp, Int.mul_ediv_cancel_left _ (by omega)]
  have hcq : sub.step / a.step = q := by
    rw [hq, Int.mul_ediv_cancel_left _ (by omega)]
  apply bool_eq_of_iff
  rw [Slice.containsB_iff_mem, Slice.containsB_iff_mem]
  unfold Slice.Mem Slice.toGlobal
  simp only [hcs, hcq]
  have e1 : p ≤ j ↔ sub.start ≤ a.start + a.step * j := by
    constructor
    · intro h
      have := mul_le_mul_of_nonneg_left h (show (0:Int) ≤ a.step by omega)
      omega
    · intro h
      have h2 : a.step * p ≤ a.step * j := by omega
      exact le_of_mul_le_mul_left h2 (by omega)
  have e2 : j < (sub.stop - a.start - 1) / a.step + 1
      ↔ a.start + a.step * j < sub.stop := by
    rw [Int.lt_add_one_iff, Int.le_ediv_iff_mul_le (show (0:Int) < a.step by omega)]
    constructor
    · intro h
      have : j * a.step = a.step * j := by ring
      omega
    · intro h
      have : j * a.step = a.step * j := by ring
      omega
  have e3 : q ∣ j - p ↔ sub.step ∣ a.start + a.step * j - sub.start := by
    have hne : a.step ≠ 0 := by omega
    have er : a.start + a.step * j - sub.start = a.step * (j - p) := by
      rw [show a.step * (j - p) = a.step * j - a.step * p by ring]
      omega
    rw [er, hq, mul_dvd_mul_iff_left hne]
  constructor
  · rintro ⟨h1, h2, h3⟩
    exact ⟨e1.mp h1, e2.mp h2, e3.mp h3⟩
  · rintro ⟨h1, h2, h3⟩
    exact ⟨e1.mpr h1, e2.mpr h2, e3.mpr h3⟩

theorem indexForSubslice_toLocal_comp (a sub : Slice) (length : Nat)
    (ha : a.Normalized length) (hsub : sub.Normalized length)
    (hds : a.step ∣ sub.step) (hd0 : a.step ∣ sub.start - a.start)
    (x : Int) (hx : sub.step ∣ x - sub.start) :
    (indexForSubslice a sub length).toLocal (a.toLocal x)
      = sub.toLocal x := by
  rw [indexForSubslice_eq a sub length ha hsub]
  obtain ⟨p, hp⟩ := hd0
  obtain ⟨q, hq⟩ := hds
  have hS : 1 ≤ a.step := ha.2.2.2
  have hq1 : 1 ≤ q := one_le_right_of_mul a.step q (by omega)
    (by rw [← hq]; exact hsub.2.2.2)
  obtain ⟨m, hm⟩ := hx
  unfold Slice.toLocal
  simp only
  have hcs : (sub.start - a.start) / a.step = p := by
    rw [hp, Int.mul_ediv_cancel_left _ (by omega)]
  have hcq : sub.step / a.step = q := by
    rw [hq, Int.mul_ediv_cancel_left _ (by omega)]
  have e1 : x - a.start = a.step * (q * m + p) := by
    have e0 : x - a.start = (x - sub.start) + (sub.start - a.start) := by ring
    rw [e0, hm, hp, hq]
    ring
  rw [hcs, hcq, e1, Int.mul_ediv_cancel_left _ (show a.step ≠ 0 by omega),
    show q * m + p - p = q * m by ring,
    Int.mul_ediv_cancel_left _ (show q ≠ 0 by omega), hm,
    Int.mul_ediv_cancel_left _ (show sub.step ≠ 0 by
      have := hsub.2.2.2; omega)]

theorem indexForSubslice_toGlobal_comp (a sub : Slice) (length : Nat)
    (ha : a.Normalized length) (hsub : sub.Normalized length)
    (hds : a.step ∣ sub.step) (hd0 : a.step ∣ sub.start - a.start)
    (x : Int) (hx : sub.step ∣ x - sub.start) :
    (indexForSubslice a sub length).toGlobal (sub.toLocal x)
      = a.toLocal x := by
  rw [indexForSubslice_eq a sub length ha hsub]
  obtain ⟨p, hp⟩ := hd0
  obtain ⟨q, hq⟩ := hds
  have hS : 1 ≤ a.step := ha.2.2.2
  have hq1 : 1 ≤ q := one_le_right_of_mul a.step q (by omega)
    (by rw [← hq]; exact hsub.2.2.2)
  obtain ⟨m, hm⟩ := hx
  unfold Slice.toLocal Slice.toGlobal
  simp only
  have hcs : (sub.start - a.start) / a.step = p := by
    rw [hp, Int.mul_ediv_cancel_left _ (by omega)]
  have hcq : sub.step / a.step = q := by
    rw [hq, Int.mul_ediv_cancel_left _ (by omega)]
  have e1 : x - a.start = a.step * (q * m + p) := by
    have e0 : x - a.start = (x - sub.start) + (sub.start - a.start) := by ring
    rw [e0, hm, hp, hq]
    ring
  rw [hcs, hcq, hm,
    Int.mul_ediv_cancel_left _ (show sub.step ≠ 0 by
      have := hsub.2.2.2; omega),
    e1, Int.mul_ediv_cancel_left _ (show a.step ≠ 0 by omega)]
  ring

/-! ### List-level facts about `_index_intersection` and `_index_for_subindex` -/

theorem sliceIntersection_some_facts (a b s : Slice) (length : Nat)
    (ha : a.Normalized length) (hb : b.Normalized length)
    (h : sliceIntersection a b length = some s) :
    s.Normalized length ∧ a.step ∣ s.step ∧ b.step ∣ s.step ∧
      a.step ∣ (s.start - a.start) ∧ b.step ∣ (s.start - b.start) ∧
      (∀ i : Int, s.Mem i ↔ a.Mem i ∧ b.Mem i) := by
  have hmem := ((sliceIntersection_spec a b length ha hb).1 s h).2.2.2.2
  have hA : 1 ≤ a.step := ha.2.2.2
  have hB : 1 ≤ b.step := hb.2.2.2
  rw [sliceIntersection_eq a b length ha hb] at h
  by_cases hdvd : ((interGcd a b : Nat) : Int) ∣ (b.start - a.start)
  · rw [if_pos hdvd] at h
    by_cases hlt : interStart a b < min a.stop b.stop
    · rw [if_pos hlt] at h
      injection h with h
      subst h
      have hrange := interStart_range a b hA hB
      have hpos := interStep_pos a b hA hB
      have hnorm : (Slice.mk (interStart a b) (min a.stop b.stop)
          (interStep a b)).Normalized length := by
        unfold Slice.Normalized
        dsimp only
        have h1 := ha.1
        have h2 := hb.1
        have h3 := ha.2.2.1
        have h4 := hb.2.2.1
        exact ⟨by omega, hlt, by omega, by omega⟩
      exact ⟨hnorm, stepA_dvd_interStep a b hA hB, stepB_dvd_interStep a b,
        stepA_dvd_interStart_sub a b hA hB,
        stepB_dvd_interStart_sub a b hA hB hdvd, hmem⟩
    · rw [if_neg hlt] at h
      exact absurd h (by simp)
  · rw [if_neg hdvd] at h
    exact absurd h (by simp)

theorem indexIntersection_cons (a b : Slice) (A B : List Slice) (d : Nat)
    (shape : List Nat) :
    indexIntersection (a :: A) (b :: B) (d :: shape)
      = (sliceIntersection a b d).bind (fun s =>
          (indexIntersection A B shape).map (fun rest => s :: rest)) := by
  unfold indexIntersection
  show (sliceIntersection a b d
    :: List.zipWith3 (fun a b len => sliceIntersection a b len) A B shape).mapM id
    = _
  rw [List.mapM_cons]
  cases sliceIntersection a b d with
  | none => simp
  | some s =>
    cases (List.zipWith3 (fun a b len => sliceIntersection a b len)
      A B shape).mapM id <;> simp

theorem memIdx_length (idx : List Slice) (c : List Int)
    (h : memIdx idx c = true) : c.length = idx.length := by
  induction idx generalizing c with
  | nil =>
    cases c with
    | nil => rfl
    | cons x c2 => simp [memIdx] at h
  | cons s idx2 ih =>
    cases c with
    | nil => simp [memIdx] at h
    | cons x c2 =>
      simp only [memIdx, Bool.and_eq_true] at h
      simp [ih c2 h.2]

theorem toGlobalIdx_toLocalIdx (idx : List Slice) (c : List Int)
    (hstep : ∀ s ∈ idx, 1 ≤ s.step) (hc : memIdx idx c = true) :
    toGlobalIdx idx (toLocalIdx idx c) = c := by
  induction idx generalizing c with
  | nil =>
    cases c with
    | nil => rfl
    | cons x c2 => simp [memIdx] at hc
  | cons s idx2 ih =>
    cases c with
    | nil => simp [memIdx] at hc
    | cons x c2 =>
      simp only [memIdx, Bool.and_eq_true] at hc
      have hd := (s.containsB_iff_mem x).mp hc.1
      have hred : toGlobalIdx (s :: idx2) (toLocalIdx (s :: idx2) (x :: c2))
          = s.toGlobal (s.toLocal x)
            :: toGlobalIdx idx2 (toLocalIdx idx2 c2) := rfl
      rw [hred, s.toGlobal_toLocal x (hstep s (by simp)) hd.2.2,
        ih c2 (fun t ht => hstep t (by simp [ht])) hc.2]

/-- The per-dimension divisibility relations between an operand index and
the intersection index returned by `_index_intersection`. -/
def SubIdxOf (A inter : List Slice) : Prop :=
  ∀ p ∈ A.zip inter, p.1.step ∣ p.2.step ∧ p.1.step ∣ (p.2.start - p.1.start)

theorem indexIntersection_some_facts (A B inter : List Slice)
    (shape : List Nat) (hA : IdxNormalized A shape)
    (hB : IdxNormalized B shape)
    (h : indexIntersection A B shape = some inter) :
    IdxNormalized inter shape ∧ SubIdxOf A inter ∧ SubIdxOf B inter ∧
      ∀ c : List Int, memIdx inter c = (memIdx A c && memIdx B c) := by
  induction A generalizing B shape inter with
  | nil =>
    cases shape with
    | cons d sh2 => exact absurd hA.1 (by simp)
    | nil =>
      cases B with
      | cons b B2 => exact absurd hB.1 (by simp)
      | nil =>
        have h0 : indexIntersection ([] : List Slice) ([] : List Slice)
            ([] : List Nat) = some [] := rfl
        rw [h0] at h
        injection h with h
        subst h
        refine ⟨⟨rfl, by simp⟩, by simp [SubIdxOf], by simp [SubIdxOf], ?_⟩
        intro c
        cases c <;> simp [memIdx]
  | cons a A2 ih =>
    cases shape with
    | nil => exact absurd hA.1 (by simp)
    | cons d sh2 =>
      cases B with
      | nil => exact absurd hB.1 (by simp)
      | cons b B2 =>
        obtain ⟨hna, hA2⟩ := (idxNormalized_cons a A2 d sh2).mp hA
        obtain ⟨hnb, hB2⟩ := (idxNormalized_cons b B2 d sh2).mp hB
        rw [indexIntersection_cons] at h
        cases hs : sliceIntersection a b d with
        | none => rw [hs] at h; exact absurd h (by simp)
        | some s =>
          rw [hs] at h
          cases ht : indexIntersection A2 B2 sh2 with
          | none => rw [ht] at h; exact absurd h (by simp)
          | some rest =>
            rw [ht] at h
            have hinter : s :: rest = inter := by
              simpa using h
            subst hinter
            obtain ⟨hsf1, hsf2, hsf3, hsf4, hsf5, hsf6⟩ :=
              sliceIntersection_some_facts a b s d hna hnb hs
            obtain ⟨ihn, ihs1, ihs2, ihm⟩ := ih B2 rest sh2 hA2 hB2 ht
            refine ⟨(idxNormalized_cons s rest d sh2).mpr ⟨hsf1, ihn⟩, ?_, ?_, ?_⟩
            · intro p hp
              simp only [List.zip_cons_cons, List.mem_cons] at hp
              rcases hp with rfl | hp
              · exact ⟨hsf2, hsf4⟩
              · exact ihs1 p hp
            · intro p hp
              simp only [List.zip_cons_cons, List.mem_cons] at hp
              rcases hp with rfl | hp
              · exact ⟨hsf3, hsf5⟩
              · exact ihs2 p hp
            · intro c
              cases c with
              | nil => simp [memIdx]
              | cons x c2 =>
                simp only [memIdx]
                rw [ihm c2]
                have hx : s.containsB x = (a.containsB x && b.containsB x) := by
                  apply bool_eq_of_iff
                  simp only [Bool.and_eq_true]
                  rw [Slice.containsB_iff_mem, Slice.containsB_iff_mem,
                    Slice.containsB_iff_mem]
                  exact hsf6 x
                rw [hx]
                cases a.containsB x <;> cases b.containsB x <;>
                  cases memIdx A2 c2 <;> cases memIdx B2 c2 <;> rfl

theorem idxNormalized_steps (idx : List Slice) (shape : List Nat)
    (h : IdxNormalized idx shape) : ∀ s ∈ idx, 1 ≤ s.step := by
  induction idx generalizing shape with
  | nil => intro s hs; simp at hs
  | cons a idx2 ih =>
    cases shape with
    | nil => exact absurd h.1 (by simp)
    | cons d sh2 =>
      obtain ⟨hna, h2⟩ := (idxNormalized_cons a idx2 d sh2).mp h
      intro s hs
      rcases List.mem_cons.mp hs with rfl | hs
      · exact hna.2.2.2
      · exact ih sh2 h2 s hs

theorem toLocalIdx_length (idx : List Slice) (c : List Int) :
    (toLocalIdx idx c).length = min idx.length c.length := by
  unfold toLocalIdx
  rw [List.length_zipWith]

theorem mem_both_gcd_dvd (a b : Slice) (i : Int) (hai : a.Mem i)
    (hbi : b.Mem i) : (Int.gcd a.step b.step : Int) ∣ (b.start - a.start) := by
  have h1 : (Int.gcd a.step b.step : Int) ∣ (i - a.start) :=
    dvd_trans Int.gcd_dvd_left hai.2.2
  have h2 : (Int.gcd a.step b.step : Int) ∣ (i - b.start) :=
    dvd_trans Int.gcd_dvd_right hbi.2.2
  have e : b.start - a.start = (i - a.start) - (i - b.start) := by ring
  rw [e]
  exact dvd_sub h1 h2

theorem sliceIntersection_none_disjoint (a b : Slice) (length : Nat)
    (ha : a.Normalized length) (hb : b.Normalized length)
    (h : sliceIntersection a b length = none) (x : Int) :
    (a.containsB x && b.containsB x) = false := by
  cases hax : a.containsB x
  · simp
  · cases hbx : b.containsB x
    · simp
    · exfalso
      have hma := (a.containsB_iff_mem x).mp hax
      have hmb := (b.containsB_iff_mem x).mp hbx
      have hnone := ((sliceIntersection_spec a b length ha hb).2).mp h
      rcases hnone with hnd | hall
      · exact hnd (mem_both_gcd_dvd a b x hma hmb)
      · refine hall x ⟨⟨hma.2.2, hmb.2.2, ?_⟩, ?_⟩
        · have := hma.1
          have := hmb.1
          omega
        · have := hma.2.1
          have := hmb.2.1
          omega

theorem indexIntersection_none_not_both (A B : List Slice)
    (shape : List Nat) (hA : IdxNormalized A shape)
    (hB : IdxNormalized B shape)
    (h : indexIntersection A B shape = none) (c : List Int) :
    (memIdx A c && memIdx B c) = false := by
  induction A generalizing B shape c with
  | nil =>
    cases shape with
    | cons d sh2 => exact absurd hA.1 (by simp)
    | nil =>
      cases B with
      | cons b B2 => exact absurd hB.1 (by simp)
      | nil =>
        have h0 : indexIntersection ([] : List Slice) ([] : List Slice)
            ([] : List Nat) = some [] := rfl
        rw [h0] at h
        exact absurd h (by simp)
  | cons a A2 ih =>
    cases shape with
    | nil => exact absurd hA.1 (by simp)
    | cons d sh2 =>
      cases B with
      | nil => exact absurd hB.1 (by simp)
      | cons b B2 =>
        obtain ⟨hna, hA2⟩ := (idxNormalized_cons a A2 d sh2).mp hA
        obtain ⟨hnb, hB2⟩ := (idxNormalized_cons b B2 d sh2).mp hB
        cases c with
        | nil => simp [memIdx]
        | cons x c2 =>
          rw [indexIntersection_cons] at h
          simp only [memIdx]
          cases hs : sliceIntersection a b d with
          | none =>
            have hdisj := sliceIntersection_none_disjoint a b d hna hnb hs x
            cases hax : a.containsB x <;> cases hbx : b.containsB x <;>
              simp_all
          | some s =>
            rw [hs] at h
            cases ht : indexIntersection A2 B2 sh2 with
            | some rest => rw [ht] at h; exact absurd h (by simp)
            | none =>
              have htail := ih B2 sh2 hA2 hB2 ht c2
              cases h2A : memIdx A2 c2 <;> cases h2B : memIdx B2 c2 <;>
                simp_all

theorem indexForSubindex_memIdx (A inter : List Slice) (shape : List Nat)
    (hA : IdxNormalized A shape) (hinter : IdxNormalized inter shape)
    (hsub : SubIdxOf A inter) (j : List Int)
    (hlen : j.length = shape.length) :
    memIdx (indexForSubindex A inter shape) j
      = memIdx inter (toGlobalIdx A j) := by
  induction A generalizing inter shape j with
  | nil =>
    cases shape with
    | cons d sh2 => exact absurd hA.1 (by simp)
    | nil =>
      cases inter with
      | cons s i2 => exact absurd hinter.1 (by simp)
      | nil =>
        cases j with
        | nil => rfl
        | cons x j2 => simp at hlen
  | cons a A2 ih =>
    cases shape with
    | nil => exact absurd hA.1 (by simp)
    | cons d sh2 =>
      cases inter with
      | nil => exact absurd hinter.1 (by simp)
      | cons s i2 =>
        cases j with
        | nil => simp at hlen
        | cons x j2 =>
          obtain ⟨hna, hA2⟩ := (idxNormalized_cons a A2 d sh2).mp hA
          obtain ⟨hns, hi2⟩ := (idxNormalized_cons s i2 d sh2).mp hinter
          have hhd := hsub (a, s) (by simp [List.zip_cons_cons])
          have htl : SubIdxOf A2 i2 := fun p hp =>
            hsub p (by simp [List.zip_cons_cons, hp])
          show ((indexForSubslice a s d).containsB x
              && memIdx (indexForSubindex A2 i2 sh2) j2)
            = (s.containsB (a.toGlobal x)
              && memIdx i2 (toGlobalIdx A2 j2))
          rw [indexForSubslice_containsB a s d hna hns hhd.1 hhd.2 x,
            ih i2 sh2 hA2 hi2 htl j2 (by simpa using hlen)]

theorem indexForSubindex_toLocalIdx_comp (A inter : List Slice)
    (shape : List Nat) (hA : IdxNormalized A shape)
    (hinter : IdxNormalized inter shape) (hsub : SubIdxOf A inter)
    (c : List Int) (hc : memIdx inter c = true) :
    toLocalIdx (indexForSubindex A inter shape) (toLocalIdx A c)
      = toLocalIdx inter c := by
  induction A generalizing inter shape c with
  | nil =>
    cases shape with
    | cons d sh2 => exact absurd hA.1 (by simp)
    | nil =>
      cases inter with
      | cons s i2 => exact absurd hinter.1 (by simp)
      | nil => rfl
  | cons a A2 ih =>
    cases shape with
    | nil => exact absurd hA.1 (by simp)
    | cons d sh2 =>
      cases inter with
      | nil => exact absurd hinter.1 (by simp)
      | cons s i2 =>
        cases c with
        | nil => simp [memIdx] at hc
        | cons x c2 =>
          simp only [memIdx, Bool.and_eq_true] at hc
          obtain ⟨hna, hA2⟩ := (idxNormalized_cons a A2 d sh2).mp hA
          obtain ⟨hns, hi2⟩ := (idxNormalized_cons s i2 d sh2).mp hinter
          have hhd := hsub (a, s) (by simp [List.zip_cons_cons])
          have htl : SubIdxOf A2 i2 := fun p hp =>
            hsub p (by simp [List.zip_cons_cons, hp])
          have hxm := (s.containsB_iff_mem x).mp hc.1
          show (indexForSubslice a s d).toLocal (a.toLocal x)
              :: toLocalIdx (indexForSubindex A2 i2 sh2) (toLocalIdx A2 c2)
            = s.toLocal x :: toLocalIdx i2 c2
          rw [indexForSubslice_toLocal_comp a s d hna hns hhd.1 hhd.2 x
            hxm.2.2, ih i2 sh2 hA2 hi2 htl c2 hc.2]

theorem indexForSubindex_toGlobalIdx_comp (A inter : List Slice)
    (shape : List Nat) (hA : IdxNormalized A shape)
    (hinter : IdxNormalized inter shape) (hsub : SubIdxOf A inter)
    (c : List Int) (hc : memIdx inter c = true) :
    toGlobalIdx (indexForSubindex A inter shape) (toLocalIdx inter c)
      = toLocalIdx A c := by
  induction A generalizing inter shape c with
  | nil =>
    cases shape with
    | cons d sh2 => exact absurd hA.1 (by simp)
    | nil =>
      cases inter with
      | cons s i2 => exact absurd hinter.1 (by simp)
      | nil => rfl
  | cons a A2 ih =>
    cases shape with
    | nil => exact absurd hA.1 (by simp)
    | cons d sh2 =>
      cases inter with
      | nil => exact absurd hinter.1 (by simp)
      | cons s i2 =>
        cases c with
        | nil => simp [memIdx] at hc
        | cons x c2 =>
          simp only [memIdx, Bool.and_eq_true] at hc
          obtain ⟨hna, hA2⟩ := (idxNormalized_cons a A2 d sh2).mp hA
          obtain ⟨hns, hi2⟩ := (idxNormalized_cons s i2 d sh2).mp hinter
          have hhd := hsub (a, s) (by simp [List.zip_cons_cons])
          have htl : SubIdxOf A2 i2 := fun p hp =>
            hsub p (by simp [List.zip_cons_cons, hp])
          have hxm := (s.containsB_iff_mem x).mp hc.1
          show (indexForSubslice a s d).toGlobal (s.toLocal x)
              :: toGlobalIdx (indexForSubindex A2 i2 sh2) (toLocalIdx i2 c2)
            = a.toLocal x :: toLocalIdx A2 c2
          rw [indexForSubslice_toGlobal_comp a s d hna hns hhd.1 hhd.2 x
            hxm.2.2, ih i2 sh2 hA2 hi2 htl c2 hc.2]

/-! ### Global-coordinate view semantics of the chunk operations -/

theorem toLocalIdx_length_of_mem (idx : List Slice) (shape : List Nat)
    (hn : IdxNormalized idx shape) (c : List Int)
    (hc : memIdx idx c = true) :
    (toLocalIdx idx c).length = shape.length := by
  rw [toLocalIdx_length, memIdx_length idx c hc, hn.1]
  omega

theorem sendIntersection_view (shape : List Nat) (src dst : Buf)
    (srcIdx dstIdx : List Slice) (hsrc : IdxNormalized srcIdx shape)
    (hdst : IdxNormalized dstIdx shape) (c : List Int)
    (hc : memIdx dstIdx c = true) :
    sendIntersection shape src srcIdx dst dstIdx (toLocalIdx dstIdx c)
      = if memIdx srcIdx c = true then src (toLocalIdx srcIdx c)
        else dst (toLocalIdx dstIdx c) := by
  unfold sendIntersection
  cases hI : indexIntersection srcIdx dstIdx shape with
  | none =>
    have hdisj := indexIntersection_none_not_both srcIdx dstIdx shape
      hsrc hdst hI c
    have hfalse : memIdx srcIdx c = false := by
      cases hms : memIdx srcIdx c
      · rfl
      · rw [hms, hc] at hdisj
        exact absurd hdisj (by simp)
    rw [if_neg (by simp [hfalse])]
  | some inter =>
    obtain ⟨hin, hsubS, hsubD, hmem⟩ :=
      indexIntersection_some_facts srcIdx dstIdx inter shape hsrc hdst hI
    have hround : toGlobalIdx dstIdx (toLocalIdx dstIdx c) = c :=
      toGlobalIdx_toLocalIdx dstIdx c
        (idxNormalized_steps dstIdx shape hdst) hc
    have hmm : memIdx (indexForSubindex dstIdx inter shape)
        (toLocalIdx dstIdx c) = memIdx inter c := by
      rw [indexForSubindex_memIdx dstIdx inter shape hdst hin hsubD _
        (toLocalIdx_length_of_mem dstIdx shape hdst c hc), hround]
    show setSlices dst (indexForSubindex dstIdx inter shape)
        (getSlices src (indexForSubindex srcIdx inter shape))
        (toLocalIdx dstIdx c) = _
    unfold setSlices getSlices
    rw [hmm, hmem c, hc]
    cases hs : memIdx srcIdx c with
    | false => simp
    | true =>
      have hic : memIdx inter c = true := by rw [hmem c, hs, hc]; rfl
      rw [indexForSubindex_toLocalIdx_comp dstIdx inter shape hdst hin
        hsubD c hic]
      rw [indexForSubindex_toGlobalIdx_comp srcIdx inter shape hsrc hin
        hsubS c hic]
      simp

theorem setZeroOnIntersection_view (shape : List Nat) (aChunk : Buf)
    (aIdx bIdx : List Slice) (ha : IdxNormalized aIdx shape)
    (hb : IdxNormalized bIdx shape) (c : List Int)
    (hc : memIdx aIdx c = true) :
    setZeroOnIntersection shape aChunk aIdx bIdx (toLocalIdx aIdx c)
      = if memIdx bIdx c = true then 0 else aChunk (toLocalIdx aIdx c) := by
  unfold setZeroOnIntersection
  cases hI : indexIntersection aIdx bIdx shape with
  | none =>
    have hdisj := indexIntersection_none_not_both aIdx bIdx shape ha hb hI c
    have hfalse : memIdx bIdx c = false := by
      cases hms : memIdx bIdx c
      · rfl
      · rw [hms, hc] at hdisj
        exact absurd hdisj (by simp)
    rw [if_neg (by simp [hfalse])]
  | some inter =>
    obtain ⟨hin, hsubA, hsubB, hmem⟩ :=
      indexIntersection_some_facts aIdx bIdx inter shape ha hb hI
    have hround : toGlobalIdx aIdx (toLocalIdx aIdx c) = c :=
      toGlobalIdx_toLocalIdx aIdx c (idxNormalized_steps aIdx shape ha) hc
    have hmm : memIdx (indexForSubindex aIdx inter shape)
        (toLocalIdx aIdx c) = memIdx inter c := by
      rw [indexForSubindex_memIdx aIdx inter shape ha hin hsubA _
        (toLocalIdx_length_of_mem aIdx shape ha c hc), hround]
    show setSlices aChunk (indexForSubindex aIdx inter shape) (fun _ => 0)
        (toLocalIdx aIdx c) = _
    unfold setSlices
    rw [hmm, hmem c, hc]
    cases hs : memIdx bIdx c <;> simp

theorem applyAndUpdateChunks_dst (func : Int → Int → Int)
    (identity : Option Int) (shape : List Nat) (src dst : Buf)
    (srcIdx dstIdx : List Slice) (hsrc : IdxNormalized srcIdx shape)
    (hdst : IdxNormalized dstIdx shape) (c : List Int)
    (hc : memIdx dstIdx c = true) :
    (applyAndUpdateChunks func identity shape src srcIdx dst dstIdx).2
        (toLocalIdx dstIdx c)
      = if memIdx srcIdx c = true
        then func (src (toLocalIdx srcIdx c)) (dst (toLocalIdx dstIdx c))
        else dst (toLocalIdx dstIdx c) := by
  unfold applyAndUpdateChunks
  cases hI : indexIntersection srcIdx dstIdx shape with
  | none =>
    have hdisj := indexIntersection_none_not_both srcIdx dstIdx shape
      hsrc hdst hI c
    have hfalse : memIdx srcIdx c = false := by
      cases hms : memIdx srcIdx c
      · rfl
      · rw [hms, hc] at hdisj
        exact absurd hdisj (by simp)
    rw [if_neg (by simp [hfalse])]
  | some inter =>
    obtain ⟨hin, hsubS, hsubD, hmem⟩ :=
      indexIntersection_some_facts srcIdx dstIdx inter shape hsrc hdst hI
    have hround : toGlobalIdx dstIdx (toLocalIdx dstIdx c) = c :=
      toGlobalIdx_toLocalIdx dstIdx c
        (idxNormalized_steps dstIdx shape hdst) hc
    have hmm : memIdx (indexForSubindex dstIdx inter shape)
        (toLocalIdx dstIdx c) = memIdx inter c := by
      rw [indexForSubindex_memIdx dstIdx inter shape hdst hin hsubD _
        (toLocalIdx_length_of_mem dstIdx shape hdst c hc), hround]
    show setSlices dst (indexForSubindex dstIdx inter shape)
        (fun j => func (getSlices src (indexForSubindex srcIdx inter shape) j)
          (getSlices dst (indexForSubindex dstIdx inter shape) j))
        (toLocalIdx dstIdx c) = _
    unfold setSlices getSlices
    rw [hmm, hmem c, hc]
    cases hs : memIdx srcIdx c with
    | false => simp
    | true =>
      have hic : memIdx inter c = true := by rw [hmem c, hs, hc]; rfl
      rw [indexForSubindex_toLocalIdx_comp dstIdx inter shape hdst hin
        hsubD c hic]
      simp only
      rw [indexForSubindex_toGlobalIdx_comp srcIdx inter shape hsrc hin
        hsubS c hic,
        indexForSubindex_toGlobalIdx_comp dstIdx inter shape hdst hin
        hsubD c hic]
      simp

theorem applyAndUpdateChunks_src (func : Int → Int → Int) (e : Int)
    (shape : List Nat) (src dst : Buf) (srcIdx dstIdx : List Slice)
    (hsrc : IdxNormalized srcIdx shape) (hdst : IdxNormalized dstIdx shape)
    (c : List Int) (hc : memIdx srcIdx c = true) :
    (applyAndUpdateChunks func (some e) shape src srcIdx dst dstIdx).1
        (toLocalIdx srcIdx c)
      = if memIdx dstIdx c = true then e
        else src (toLocalIdx srcIdx c) := by
  unfold applyAndUpdateChunks
  cases hI : indexIntersection srcIdx dstIdx shape with
  | none =>
    have hdisj := indexIntersection_none_not_both srcIdx dstIdx shape
      hsrc hdst hI c
    have hfalse : memIdx dstIdx c = false := by
      cases hms : memIdx dstIdx c
      · rfl
      · rw [hms, hc] at hdisj
        exact absurd hdisj (by simp)
    rw [if_neg (by simp [hfalse])]
  | some inter =>
    obtain ⟨hin, hsubS, hsubD, hmem⟩ :=
      indexIntersection_some_facts srcIdx dstIdx inter shape hsrc hdst hI
    have hround : toGlobalIdx srcIdx (toLocalIdx srcIdx c) = c :=
      toGlobalIdx_toLocalIdx srcIdx c
        (idxNormalized_steps srcIdx shape hsrc) hc
    have hmm : memIdx (indexForSubindex srcIdx inter shape)
        (toLocalIdx srcIdx c) = memIdx inter c := by
      rw [indexForSubindex_memIdx srcIdx inter shape hsrc hin hsubS _
        (toLocalIdx_length_of_mem srcIdx shape hsrc c hc), hround]
    show setSlices src (indexForSubindex srcIdx inter shape) (fun _ => e)
        (toLocalIdx srcIdx c) = _
    unfold setSlices
    rw [hmm, hmem c, hc]
    cases hs : memIdx dstIdx c <;> simp

/-! ### `_DistributedArray`: mode-conversion sweeps, asnumpy, reshard -/

/-- Iteration `i` of the first loop of `_all_reduce_intersections`:
`_apply_and_update_chunks` from one source chunk into each later chunk in
turn; the source chunk is updated (zeroed on overlaps) between inner
iterations. -/
def applyRow (func : Int → Int → Int) (identity : Option Int)
    (shape : List Nat) (srcChunk : Buf) (srcIdx : List Slice) :
    List (Buf × List Slice) → Buf × List (Buf × List Slice)
  | [] => (srcChunk, [])
  | (dstChunk, dstIdx) :: rest =>
    let sd := applyAndUpdateChunks func identity shape srcChunk srcIdx
      dstChunk dstIdx
    let srest := applyRow func identity shape sd.1 srcIdx rest
    (srest.1, (sd.2, dstIdx) :: srest.2)

theorem applyRow_length (func : Int → Int → Int) (identity : Option Int)
    (shape : List Nat) (srcChunk : Buf) (srcIdx : List Slice)
    (rest : List (Buf × List Slice)) :
    (applyRow func identity shape srcChunk srcIdx rest).2.length
      = rest.length := by
  induction rest generalizing srcChunk with
  | nil => rfl
  | cons p rest2 ih =>
    cases p with
    | mk dstChunk dstIdx =>
      unfold applyRow
      simp [ih]

/-- The first loop of `_all_reduce_intersections` (`for i ...; for j > i`),
with the list length as structural fuel (`applyRow` preserves length). -/
def forwardSweepF (func : Int → Int → Int) (identity : Option Int)
    (shape : List Nat) : Nat → List (Buf × List Slice)
    → List (Buf × List Slice)
  | 0, l => l
  | _ + 1, [] => []
  | n + 1, (srcChunk, srcIdx) :: rest =>
    let r := applyRow func identity shape srcChunk srcIdx rest
    (r.1, srcIdx) :: forwardSweepF func identity shape n r.2

/-- Iteration `j` of the second loop: `_send_intersection` from one source
chunk into each earlier chunk (the source is not modified). -/
def sendRow (shape : List Nat) (srcChunk : Buf) (srcIdx : List Slice)
    (dsts : List (Buf × List Slice)) : List (Buf × List Slice) :=
  dsts.map (fun p => (sendIntersection shape srcChunk srcIdx p.1 p.2, p.2))

/-- The second loop of `_all_reduce_intersections`
(`for j = n-1 ... 0; for i < j`), processed on the reversed chunk list. -/
def backwardAuxF (shape : List Nat) : Nat → List (Buf × List Slice)
    → List (Buf × List Slice)
  | 0, l => l
  | _ + 1, [] => []
  | n + 1, (srcChunk, srcIdx) :: rest =>
    (srcChunk, srcIdx)
      :: backwardAuxF shape n (sendRow shape srcChunk srcIdx rest)

/-- `_DistributedArray._all_reduce_intersections`. -/
def allReduceIntersections (func : Int → Int → Int) (identity : Option Int)
    (shape : List Nat) (chunks : List (Buf × List Slice)) :
    List (Buf × List Slice) :=
  let fwd := forwardSweepF func identity shape chunks.length chunks
  (backwardAuxF shape fwd.length fwd.reverse).reverse

/-- Inner loop of `to_sum_mode`: zero one chunk on its overlap with every
later chunk index. -/
def zeroRow (shape : List Nat) (aChunk : Buf) (aIdx : List Slice) :
    List (List Slice) → Buf
  | [] => aChunk
  | bIdx :: rest =>
    zeroRow shape (setZeroOnIntersection shape aChunk aIdx bIdx) aIdx rest

/-- The double loop of `to_sum_mode`. -/
def sumSweep (shape : List Nat) : List (Buf × List Slice)
    → List (Buf × List Slice)
  | [] => []
  | (aChunk, aIdx) :: rest =>
    (zeroRow shape aChunk aIdx (rest.map Prod.snd), aIdx) :: sumSweep shape rest

/-- The `Mode` enum of `_array.py`. -/
inductive Mode
  | REPLICA
  | SUM
deriving DecidableEq, Repr

/-- `_DistributedArray`: global shape, device mapping (an ordered dict,
modelled as an association list), the per-device chunk buffers (parallel
to the mapping, as the two dicts are always built in the same order), and
the mode. -/
structure DistArr where
  shape : List Nat
  mapping : List (Nat × List Slice)
  chunks : List Buf
  mode : Mode

/-- The chunk buffers paired with their chunk indices, in device order. -/
def DistArr.pairs (X : DistArr) : List (Buf × List Slice) :=
  X.chunks.zip (X.mapping.map Prod.snd)

/-- `_DistributedArray.to_sum_mode`.  (`_copy_chunks` is implicit: the
model is functional.) -/
def toSumMode (X : DistArr) : DistArr :=
  if X.mode = Mode.SUM then X
  else
    { X with chunks := (sumSweep X.shape X.pairs).map Prod.fst,
             mode := Mode.SUM }

/-- `_DistributedArray.to_replica_mode`. -/
def toReplicaMode (X : DistArr) : DistArr :=
  if X.mode = Mode.REPLICA then X
  else
    { X with chunks := (allReduceIntersections (fun x y => x + y) (some 0)
        X.shape X.pairs).map Prod.fst,
             mode := Mode.REPLICA }

/-- `_DistributedArray.asnumpy`.  `numpy.empty` is modelled by the
caller-supplied `junk` buffer (uninitialized memory), `numpy.zeros` by the
all-zero buffer. -/
def asnumpy (X : DistArr) (junk : Buf) : Buf :=
  let init : Buf := if X.mode = Mode.REPLICA then junk else fun _ => 0
  X.pairs.foldl
    (fun acc p =>
      if X.mode = Mode.REPLICA then setSlices acc p.2 p.1
      else addSlices acc p.2 p.1) init

/-- The values held at global coordinate `c` by the chunks covering `c`,
in device order. -/
def viewsAt (pairs : List (Buf × List Slice)) (c : List Int) : List Int :=
  pairs.filterMap (fun p =>
    if memIdx p.2 c = true then some (p.1 (toLocalIdx p.2 c)) else none)

/-! ### Views held at a coordinate through the sweeps -/

/-- All chunk indices of a pair list normalized against the shape. -/
def PairsNorm (shape : List Nat) (pairs : List (Buf × List Slice)) : Prop :=
  ∀ p ∈ pairs, IdxNormalized p.2 shape

/-- Add a value onto the first element of a list (no-op on `[]`). -/
def addToFirst (v : Int) : List Int → List Int
  | [] => []
  | h :: t => (v + h) :: t

theorem getLastD_irrel (l : List Int) (h : l ≠ []) (d1 d2 : Int) :
    l.getLastD d1 = l.getLastD d2 := by
  cases l with
  | nil => exact absurd rfl h
  | cons a t => rfl

theorem viewsAt_cons (b : Buf) (idx : List Slice)
    (rest : List (Buf × List Slice)) (c : List Int) :
    viewsAt ((b, idx) :: rest) c
      = if memIdx idx c = true then b (toLocalIdx idx c) :: viewsAt rest c
        else viewsAt rest c := by
  unfold viewsAt
  rw [List.filterMap_cons]
  cases memIdx idx c <;> simp

theorem viewsAt_nil_iff_any (rest : List (Buf × List Slice)) (c : List Int) :
    viewsAt rest c = []
      ↔ (rest.map Prod.snd).any (fun idx => memIdx idx c) = false := by
  induction rest with
  | nil => simp [viewsAt]
  | cons p rest2 ih =>
    cases p with
    | mk b idx =>
      rw [viewsAt_cons]
      cases hm : memIdx idx c <;> simp [hm, ih]

theorem zeroRow_view (shape : List Nat) (aIdx : List Slice)
    (ha : IdxNormalized aIdx shape) (c : List Int)
    (hc : memIdx aIdx c = true) :
    ∀ (idxs : List (List Slice)) (aChunk : Buf),
      (∀ idx ∈ idxs, IdxNormalized idx shape) →
      zeroRow shape aChunk aIdx idxs (toLocalIdx aIdx c)
        = if idxs.any (fun idx => memIdx idx c) then 0
          else aChunk (toLocalIdx aIdx c) := by
  intro idxs
  induction idxs with
  | nil =>
    intro aChunk _
    simp [zeroRow]
  | cons bIdx rest ih =>
    intro aChunk hall
    have hb : IdxNormalized bIdx shape := hall bIdx (by simp)
    have hrest : ∀ idx ∈ rest, IdxNormalized idx shape :=
      fun idx hidx => hall idx (by simp [hidx])
    unfold zeroRow
    rw [ih _ hrest]
    rw [setZeroOnIntersection_view shape aChunk aIdx bIdx ha hb c hc]
    cases hm : memIdx bIdx c <;>
      cases hany : rest.any (fun idx => memIdx idx c) <;> simp [hm, hany]

theorem sumSweep_views (shape : List Nat) (pairs : List (Buf × List Slice))
    (hn : PairsNorm shape pairs) (c : List Int) :
    (sumSweep shape pairs).map Prod.snd = pairs.map Prod.snd ∧
    (viewsAt (sumSweep shape pairs) c).length = (viewsAt pairs c).length ∧
    (viewsAt (sumSweep shape pairs) c).sum
      = (viewsAt pairs c).getLastD 0 := by
  induction pairs with
  | nil => exact ⟨rfl, rfl, rfl⟩
  | cons p rest ih =>
    cases p with
    | mk aChunk aIdx =>
      have ha : IdxNormalized aIdx shape := hn (aChunk, aIdx) (by simp)
      have hrestn : PairsNorm shape rest :=
        fun q hq => hn q (by simp [hq])
      obtain ⟨ih1, ih2, ih3⟩ := ih hrestn
      have hsum : sumSweep shape ((aChunk, aIdx) :: rest)
          = (zeroRow shape aChunk aIdx (rest.map Prod.snd), aIdx)
            :: sumSweep shape rest := rfl
      refine ⟨by rw [hsum]; simp [ih1], ?_⟩
      rw [hsum, viewsAt_cons, viewsAt_cons]
      cases hm : memIdx aIdx c with
      | false => exact ⟨ih2, ih3⟩
      | true =>
        have hall : ∀ idx ∈ rest.map Prod.snd, IdxNormalized idx shape := by
          intro idx hidx
          obtain ⟨q, hq, rfl⟩ := List.mem_map.mp hidx
          exact hrestn q hq
        rw [zeroRow_view shape aIdx ha c hm (rest.map Prod.snd) aChunk hall]
        constructor
        · simp [ih2]
        · cases hany : (rest.map Prod.snd).any (fun idx => memIdx idx c) with
          | false =>
            have hnil : viewsAt rest c = [] :=
              (viewsAt_nil_iff_any rest c).mpr hany
            have hnil2 : viewsAt (sumSweep shape rest) c = [] := by
              have := ih2
              rw [hnil] at this
              exact List.length_eq_zero.mp this
            simp [hnil, hnil2]
          | true =>
            have hne : viewsAt rest c ≠ [] := by
              intro hcon
              rw [(viewsAt_nil_iff_any rest c).mp hcon] at hany
              exact absurd hany (by simp)
            simp only [if_true, List.sum_cons, ih3]
            rw [List.getLastD_cons, zero_add,
              getLastD_irrel (viewsAt rest c) hne 0 (aChunk (toLocalIdx aIdx c))]

theorem addToFirst_length (v : Int) (l : List Int) :
    (addToFirst v l).length = l.length := by
  cases l <;> rfl

theorem addToFirst_zero (l : List Int) : addToFirst 0 l = l := by
  cases l with
  | nil => rfl
  | cons h t =>
    show (0 + h) :: t = h :: t
    rw [zero_add]

theorem addToFirst_sum (v : Int) (l : List Int) (h : l ≠ []) :
    (addToFirst v l).sum = v + l.sum := by
  cases l with
  | nil => exact absurd rfl h
  | cons a t =>
    show ((v + a) :: t).sum = v + (a :: t).sum
    simp only [List.sum_cons]
    ring

theorem pairsNorm_of_map_snd_eq (shape : List Nat)
    (l l2 : List (Buf × List Slice)) (h : l2.map Prod.snd = l.map Prod.snd)
    (hn : PairsNorm shape l) : PairsNorm shape l2 := by
  intro p hp
  have : p.2 ∈ l2.map Prod.snd := List.mem_map.mpr ⟨p, hp, rfl⟩
  rw [h] at this
  obtain ⟨q, hq, hqe⟩ := List.mem_map.mp this
  rw [← hqe]
  exact hn q hq

theorem applyRow_views (shape : List Nat) (srcIdx : List Slice)
    (hsrc : IdxNormalized srcIdx shape) (c : List Int) :
    ∀ (rest : List (Buf × List Slice)) (srcChunk : Buf),
      PairsNorm shape rest →
      ((applyRow (fun x y => x + y) (some 0) shape srcChunk srcIdx
          rest).2.map Prod.snd = rest.map Prod.snd) ∧
      (memIdx srcIdx c = true →
        ((applyRow (fun x y => x + y) (some 0) shape srcChunk srcIdx
            rest).1 (toLocalIdx srcIdx c)
          = if (rest.map Prod.snd).any (fun idx => memIdx idx c)
            then 0 else srcChunk (toLocalIdx srcIdx c)) ∧
        viewsAt (applyRow (fun x y => x + y) (some 0) shape srcChunk srcIdx
            rest).2 c
          = addToFirst (srcChunk (toLocalIdx srcIdx c)) (viewsAt rest c)) ∧
      (memIdx srcIdx c = false →
        viewsAt (applyRow (fun x y => x + y) (some 0) shape srcChunk srcIdx
            rest).2 c = viewsAt rest c) := by
  intro rest
  induction rest with
  | nil =>
    intro srcChunk _
    refine ⟨rfl, fun _ => ⟨rfl, rfl⟩, fun _ => rfl⟩
  | cons p rest2 ih =>
    intro srcChunk hrest
    cases p with
    | mk dstChunk dstIdx =>
      have hdstn : IdxNormalized dstIdx shape := hrest (dstChunk, dstIdx) (by simp)
      have hrest2 : PairsNorm shape rest2 := fun q hq => hrest q (by simp [hq])
      have hstep : applyRow (fun x y => x + y) (some 0) shape srcChunk srcIdx
          ((dstChunk, dstIdx) :: rest2)
        = ((applyRow (fun x y => x + y) (some 0) shape
              (applyAndUpdateChunks (fun x y => x + y) (some 0) shape
                srcChunk srcIdx dstChunk dstIdx).1 srcIdx rest2).1,
            ((applyAndUpdateChunks (fun x y => x + y) (some 0) shape
                srcChunk srcIdx dstChunk dstIdx).2, dstIdx)
              :: (applyRow (fun x y => x + y) (some 0) shape
                  (applyAndUpdateChunks (fun x y => x + y) (some 0) shape
                    srcChunk srcIdx dstChunk dstIdx).1 srcIdx rest2).2) := rfl
      set sd := applyAndUpdateChunks (fun x y => x + y) (some 0) shape
        srcChunk srcIdx dstChunk dstIdx with hsd
      obtain ⟨ih1, ih2, ih3⟩ := ih sd.1 hrest2
      rw [hstep]
      refine ⟨by simpa using ih1, ?_, ?_⟩
      · intro hc
        have hsrcval := applyAndUpdateChunks_src (fun x y => x + y) 0 shape
          srcChunk dstChunk srcIdx dstIdx hsrc hdstn c hc
        have hdstval := applyAndUpdateChunks_dst (fun x y => x + y) (some 0)
          shape srcChunk dstChunk srcIdx dstIdx hsrc hdstn c
        obtain ⟨ih2a, ih2b⟩ := ih2 hc
        constructor
        · rw [ih2a, hsrcval]
          cases hm : memIdx dstIdx c <;>
            cases hany : (rest2.map Prod.snd).any (fun idx => memIdx idx c) <;>
            simp [hm, hany]
        · rw [viewsAt_cons, ih2b, hsrcval]
          cases hm : memIdx dstIdx c with
          | false =>
            rw [viewsAt_cons, hm]
            simp
          | true =>
            rw [hdstval hm, viewsAt_cons, hm]
            simp only [hc, if_true, addToFirst_zero]
            rfl
      · intro hc
        have hdstval := applyAndUpdateChunks_dst (fun x y => x + y) (some 0)
          shape srcChunk dstChunk srcIdx dstIdx hsrc hdstn c
        rw [viewsAt_cons, viewsAt_cons, ih3 hc]
        cases hm : memIdx dstIdx c with
        | false => rfl
        | true =>
          rw [hdstval hm, hc]
          simp

theorem forwardSweepF_views (shape : List Nat) :
    ∀ (n : Nat) (pairs : List (Buf × List Slice)), pairs.length = n →
      PairsNorm shape pairs → ∀ c : List Int,
      ((forwardSweepF (fun x y => x + y) (some 0) shape n pairs).map Prod.snd
        = pairs.map Prod.snd) ∧
      (viewsAt (forwardSweepF (fun x y => x + y) (some 0) shape n pairs)
          c).length = (viewsAt pairs c).length ∧
      (viewsAt (forwardSweepF (fun x y => x + y) (some 0) shape n pairs)
          c).getLastD 0 = (viewsAt pairs c).sum := by
  intro n
  induction n with
  | zero =>
    intro pairs hlen hn c
    have : pairs = [] := List.length_eq_zero.mp hlen
    subst this
    exact ⟨rfl, rfl, rfl⟩
  | succ n ih =>
    intro pairs hlen hn c
    cases pairs with
    | nil => simp at hlen
    | cons p rest =>
      cases p with
      | mk srcChunk srcIdx =>
        have hsrcn : IdxNormalized srcIdx shape :=
          hn (srcChunk, srcIdx) (by simp)
        have hrestn : PairsNorm shape rest := fun q hq => hn q (by simp [hq])
        obtain ⟨hr1, hr2, hr3⟩ :=
          applyRow_views shape srcIdx hsrcn c rest srcChunk hrestn
        have hlen2 : (applyRow (fun x y => x + y) (some 0) shape srcChunk
            srcIdx rest).2.length = n := by
          rw [applyRow_length]
          simpa using hlen
        have hnorm2 : PairsNorm shape (applyRow (fun x y => x + y) (some 0)
            shape srcChunk srcIdx rest).2 :=
          pairsNorm_of_map_snd_eq shape rest _ hr1 hrestn
        obtain ⟨ih1, ih2, ih3⟩ := ih _ hlen2 hnorm2 c
        have hstep : forwardSweepF (fun x y => x + y) (some 0) shape (n + 1)
            ((srcChunk, srcIdx) :: rest)
          = ((applyRow (fun x y => x + y) (some 0) shape srcChunk srcIdx
                rest).1, srcIdx)
            :: forwardSweepF (fun x y => x + y) (some 0) shape n
              (applyRow (fun x y => x + y) (some 0) shape srcChunk srcIdx
                rest).2 := rfl
        rw [hstep]
        refine ⟨by simp [ih1, hr1], ?_, ?_⟩
        · rw [viewsAt_cons, viewsAt_cons]
          cases hm : memIdx srcIdx c with
          | false => simp [ih2, hr3 hm]
          | true =>
            obtain ⟨_, hv⟩ := hr2 hm
            simp [ih2, hv, addToFirst_length]
        · rw [viewsAt_cons, viewsAt_cons]
          cases hm : memIdx srcIdx c with
          | false =>
            rw [if_neg (show ¬(false = true) by simp),
              ih3, hr3 hm, if_neg (show ¬(false = true) by simp)]
          | true =>
            obtain ⟨hsv, hv⟩ := hr2 hm
            simp only [if_true]
            rw [List.getLastD_cons, hsv, List.sum_cons]
            cases hany : (rest.map Prod.snd).any (fun idx => memIdx idx c) with
            | false =>
              have hnil : viewsAt rest c = [] :=
                (viewsAt_nil_iff_any rest c).mpr hany
              have hnil2 : viewsAt (applyRow (fun x y => x + y) (some 0)
                  shape srcChunk srcIdx rest).2 c = [] := by
                rw [hv, hnil]
                rfl
              have hnil3 : viewsAt (forwardSweepF (fun x y => x + y) (some 0)
                  shape n (applyRow (fun x y => x + y) (some 0) shape
                    srcChunk srcIdx rest).2) c = [] := by
                have := ih2
                rw [hnil2] at this
                exact List.length_eq_zero.mp this
              rw [hnil3, hnil]
              simp
            | true =>
              have hne : viewsAt rest c ≠ [] := by
                intro hcon
                rw [(viewsAt_nil_iff_any rest c).mp hcon] at hany
                exact absurd hany (by simp)
              simp only [if_true]
              rw [ih3, hv, addToFirst_sum _ _ hne]

theorem sendRow_views (shape : List Nat) (srcChunk : Buf)
    (srcIdx : List Slice) (hsrc : IdxNormalized srcIdx shape) (c : List Int) :
    ∀ dsts : List (Buf × List Slice), PairsNorm shape dsts →
      ((sendRow shape srcChunk srcIdx dsts).map Prod.snd
        = dsts.map Prod.snd) ∧
      viewsAt (sendRow shape srcChunk srcIdx dsts) c
        = if memIdx srcIdx c = true
          then (viewsAt dsts c).map (fun _ => srcChunk (toLocalIdx srcIdx c))
          else viewsAt dsts c := by
  intro dsts
  induction dsts with
  | nil =>
    intro _
    constructor
    · rfl
    · cases memIdx srcIdx c <;> rfl
  | cons p rest ih =>
    intro hn
    cases p with
    | mk dstChunk dstIdx =>
      have hdstn : IdxNormalized dstIdx shape := hn (dstChunk, dstIdx) (by simp)
      have hrestn : PairsNorm shape rest := fun q hq => hn q (by simp [hq])
      obtain ⟨ih1, ih2⟩ := ih hrestn
      have hstep : sendRow shape srcChunk srcIdx ((dstChunk, dstIdx) :: rest)
          = (sendIntersection shape srcChunk srcIdx dstChunk dstIdx, dstIdx)
            :: sendRow shape srcChunk srcIdx rest := rfl
      rw [hstep]
      refine ⟨by simpa using ih1, ?_⟩
      rw [viewsAt_cons, viewsAt_cons, ih2]
      cases hm : memIdx dstIdx c with
      | false =>
        cases hs : memIdx srcIdx c <;> simp
      | true =>
        rw [sendIntersection_view shape srcChunk dstChunk srcIdx dstIdx
          hsrc hdstn c hm]
        cases hs : memIdx srcIdx c <;> simp

theorem backwardAuxF_views (shape : List Nat) :
    ∀ (n : Nat) (l : List (Buf × List Slice)), l.length = n →
      PairsNorm shape l → ∀ c : List Int,
      ((backwardAuxF shape n l).map Prod.snd = l.map Prod.snd) ∧
      viewsAt (backwardAuxF shape n l) c
        = (viewsAt l c).map (fun _ => (viewsAt l c).headD 0) := by
  intro n
  induction n with
  | zero =>
    intro l hlen hn c
    have : l = [] := List.length_eq_zero.mp hlen
    subst this
    exact ⟨rfl, rfl⟩
  | succ n ih =>
    intro l hlen hn c
    cases l with
    | nil => simp at hlen
    | cons p rest =>
      cases p with
      | mk srcChunk srcIdx =>
        have hsrcn : IdxNormalized srcIdx shape :=
          hn (srcChunk, srcIdx) (by simp)
        have hrestn : PairsNorm shape rest := fun q hq => hn q (by simp [hq])
        obtain ⟨hs1, hs2⟩ := sendRow_views shape srcChunk srcIdx hsrcn c
          rest hrestn
        have hlen2 : (sendRow shape srcChunk srcIdx rest).length = n := by
          unfold sendRow
          rw [List.length_map]
          simpa using hlen
        have hnorm2 : PairsNorm shape (sendRow shape srcChunk srcIdx rest) :=
          pairsNorm_of_map_snd_eq shape rest _ hs1 hrestn
        obtain ⟨ih1, ih2⟩ := ih _ hlen2 hnorm2 c
        have hstep : backwardAuxF shape (n + 1)
            ((srcChunk, srcIdx) :: rest)
          = (srcChunk, srcIdx)
            :: backwardAuxF shape n (sendRow shape srcChunk srcIdx rest) := rfl
        rw [hstep]
        refine ⟨by simp [ih1, hs1], ?_⟩
        rw [viewsAt_cons, viewsAt_cons, ih2, hs2]
        cases hm : memIdx srcIdx c with
        | false => simp
        | true =>
          simp only [if_true]
          cases hrv : viewsAt rest c with
          | nil => simp
          | cons v t =>
            simp only [List.map_cons, List.headD_cons, List.map_map]
            rfl

theorem viewsAt_reverse (l : List (Buf × List Slice)) (c : List Int) :
    viewsAt l.reverse c = (viewsAt l c).reverse := by
  unfold viewsAt
  rw [List.filterMap_reverse]

theorem reverse_headD (l : List Int) (d : Int) :
    l.reverse.headD d = l.getLastD d := by
  rw [List.headD_eq_head?, List.head?_reverse, List.getLastD_eq_getLast?]

theorem allReduceIntersections_views (shape : List Nat)
    (pairs : List (Buf × List Slice)) (hn : PairsNorm shape pairs)
    (c : List Int) :
    ((allReduceIntersections (fun x y => x + y) (some 0) shape pairs).map
        Prod.snd = pairs.map Prod.snd) ∧
    viewsAt (allReduceIntersections (fun x y => x + y) (some 0) shape pairs) c
      = List.replicate (viewsAt pairs c).length ((viewsAt pairs c).sum) := by
  obtain ⟨hf1, hf2, hf3⟩ :=
    forwardSweepF_views shape pairs.length pairs rfl hn c
  set fwd := forwardSweepF (fun x y => x + y) (some 0) shape pairs.length
    pairs with hfwd
  have hfnorm : PairsNorm shape fwd :=
    pairsNorm_of_map_snd_eq shape pairs fwd hf1 hn
  have hrnorm : PairsNorm shape fwd.reverse := by
    intro p hp
    exact hfnorm p (List.mem_reverse.mp hp)
  have hrlen : fwd.reverse.length = fwd.length := by
    rw [List.length_reverse]
  obtain ⟨hb1, hb2⟩ :=
    backwardAuxF_views shape fwd.length fwd.reverse hrlen hrnorm c
  constructor
  · show (backwardAuxF shape fwd.length fwd.reverse).reverse.map Prod.snd
      = pairs.map Prod.snd
    rw [List.map_reverse, hb1, List.map_reverse, hf1, List.reverse_reverse]
  · show viewsAt (backwardAuxF shape fwd.length fwd.reverse).reverse c = _
    rw [viewsAt_reverse, hb2, viewsAt_reverse, reverse_headD]
    rw [List.map_reverse, List.reverse_reverse]
    have hconst : ∀ (L : List Int) (v : Int),
        L.map (fun _ => v) = List.replicate L.length v := by
      intro L v
      induction L with
      | nil => rfl
      | cons a t ih2 => simp [ih2, List.replicate_succ]
    rw [hconst, hf2, hf3]

/-! ### `asnumpy` in terms of the covering chunk views -/

theorem asnumpy_replica_fold (pairs : List (Buf × List Slice)) :
    ∀ (acc : Buf) (c : List Int),
      pairs.foldl (fun acc p => setSlices acc p.2 p.1) acc c
        = (viewsAt pairs c).getLastD (acc c) := by
  induction pairs with
  | nil => intro acc c; rfl
  | cons p rest ih =>
    intro acc c
    cases p with
    | mk b idx =>
      show rest.foldl (fun acc p => setSlices acc p.2 p.1)
        (setSlices acc idx b) c = _
      rw [ih (setSlices acc idx b) c, viewsAt_cons]
      unfold setSlices
      cases hm : memIdx idx c with
      | false => simp
      | true =>
        simp only [if_true, List.getLastD_cons]

theorem asnumpy_sum_fold (pairs : List (Buf × List Slice)) :
    ∀ (acc : Buf) (c : List Int),
      pairs.foldl (fun acc p => addSlices acc p.2 p.1) acc c
        = acc c + (viewsAt pairs c).sum := by
  induction pairs with
  | nil => intro acc c; simp [viewsAt]
  | cons p rest ih =>
    intro acc c
    cases p with
    | mk b idx =>
      show rest.foldl (fun acc p => addSlices acc p.2 p.1)
        (addSlices acc idx b) c = _
      rw [ih (addSlices acc idx b) c, viewsAt_cons]
      unfold addSlices
      cases hm : memIdx idx c with
      | false => simp
      | true =>
        simp only [if_true, List.sum_cons]
        ring

theorem asnumpy_replica (X : DistArr) (hmode : X.mode = Mode.REPLICA)
    (junk : Buf) (c : List Int) :
    asnumpy X junk c = (viewsAt X.pairs c).getLastD (junk c) := by
  unfold asnumpy
  rw [hmode]
  simp only [eq_self_iff_true, if_true]
  exact asnumpy_replica_fold X.pairs junk c

theorem asnumpy_sum (X : DistArr) (hmode : X.mode = Mode.SUM)
    (junk : Buf) (c : List Int) :
    asnumpy X junk c = (viewsAt X.pairs c).sum := by
  unfold asnumpy
  rw [hmode]
  have hne : ¬ (Mode.SUM = Mode.REPLICA) := by simp
  simp only [if_neg hne]
  rw [asnumpy_sum_fold X.pairs (fun _ => 0) c]
  simp

/-! ### Relating the `DistArr` operations to the sweeps on `pairs` -/

theorem zip_fst_snd (l : List (Buf × List Slice)) :
    (l.map Prod.fst).zip (l.map Prod.snd) = l := by
  induction l with
  | nil => rfl
  | cons p t ih => cases p; simp [ih]

theorem map_snd_pairs (X : DistArr)
    (hwf : X.chunks.length = X.mapping.length) :
    X.pairs.map Prod.snd = X.mapping.map Prod.snd := by
  unfold DistArr.pairs
  apply List.map_snd_zip
  rw [hwf, List.length_map]

theorem pairs_length (X : DistArr)
    (hwf : X.chunks.length = X.mapping.length) :
    X.pairs.length = X.mapping.length := by
  unfold DistArr.pairs
  rw [List.length_zip, List.length_map, hwf, min_self]

theorem toSumMode_pairs (X : DistArr) (hmode : X.mode = Mode.REPLICA)
    (hwf : X.chunks.length = X.mapping.length)
    (hnorm : PairsNorm X.shape X.pairs) :
    (toSumMode X).pairs = sumSweep X.shape X.pairs
    ∧ (toSumMode X).mode = Mode.SUM
    ∧ (toSumMode X).mapping = X.mapping
    ∧ (toSumMode X).shape = X.shape
    ∧ (toSumMode X).chunks.length = (toSumMode X).mapping.length := by
  have hne : ¬ (X.mode = Mode.SUM) := by rw [hmode]; simp
  have hsnd : (sumSweep X.shape X.pairs).map Prod.snd = X.pairs.map Prod.snd :=
    (sumSweep_views X.shape X.pairs hnorm []).1
  have hY : toSumMode X
      = { X with chunks := (sumSweep X.shape X.pairs).map Prod.fst,
                 mode := Mode.SUM } := by
    unfold toSumMode
    rw [if_neg hne]
  refine ⟨?_, by rw [hY], by rw [hY], by rw [hY], ?_⟩
  · show (toSumMode X).chunks.zip ((toSumMode X).mapping.map Prod.snd) = _
    rw [hY]
    show ((sumSweep X.shape X.pairs).map Prod.fst).zip
      (X.mapping.map Prod.snd) = _
    rw [← map_snd_pairs X hwf, ← hsnd, zip_fst_snd]
  · rw [hY]
    show ((sumSweep X.shape X.pairs).map Prod.fst).length
      = X.mapping.length
    rw [List.length_map]
    have := congrArg List.length hsnd
    rw [List.length_map, List.length_map] at this
    rw [this, pairs_length X hwf]

theorem toReplicaMode_pairs (Y : DistArr) (hmode : Y.mode = Mode.SUM)
    (hwf : Y.chunks.length = Y.mapping.length)
    (hnorm : PairsNorm Y.shape Y.pairs) :
    (toReplicaMode Y).pairs
      = allReduceIntersections (fun x y => x + y) (some 0) Y.shape Y.pairs
    ∧ (toReplicaMode Y).mode = Mode.REPLICA := by
  have hne : ¬ (Y.mode = Mode.REPLICA) := by rw [hmode]; simp
  have hsnd : (allReduceIntersections (fun x y => x + y) (some 0)
        Y.shape Y.pairs).map Prod.snd = Y.pairs.map Prod.snd :=
    (allReduceIntersections_views Y.shape Y.pairs hnorm []).1
  have hZ : toReplicaMode Y
      = { Y with chunks := (allReduceIntersections (fun x y => x + y) (some 0)
            Y.shape Y.pairs).map Prod.fst,
                 mode := Mode.REPLICA } := by
    unfold toReplicaMode
    rw [if_neg hne]
  refine ⟨?_, by rw [hZ]⟩
  show (toReplicaMode Y).chunks.zip ((toReplicaMode Y).mapping.map Prod.snd)
    = _
  rw [hZ]
  show ((allReduceIntersections (fun x y => x + y) (some 0)
      Y.shape Y.pairs).map Prod.fst).zip (Y.mapping.map Prod.snd) = _
  rw [← map_snd_pairs Y hwf, ← hsnd, zip_fst_snd]

theorem getLastD_replicate (s d : Int) :
    ∀ n, (List.replicate (n + 1) s).getLastD d = s
  | 0 => rfl
  | n + 1 => by
    rw [List.replicate_succ, List.getLastD_cons, getLastD_replicate s s n]

/-- A one-dimensional buffer backed by a list (out-of-range reads give 0). -/
def listBuf1 (v : List Int) : Buf := fun c => v.getD (c.headD 0).toNat 0

/-- The spec's overlapping-replica example: shape `(4,)`,
`index_map = {0: [(0,3,1)], 1: [(1,4,1)]}`, values `X = [1,2,3,4]`
(each replica chunk holds its slice of `X`). -/
def exC2 : DistArr :=
  { shape := [4]
  , mapping := [(0, [⟨0, 3, 1⟩]), (1, [⟨1, 4, 1⟩])]
  , chunks := [listBuf1 [1, 2, 3], listBuf1 [2, 3, 4]]
  , mode := Mode.REPLICA }

/-- C2: for every distributed array `X` in REPLICA mode (well-formed, with
normalized chunk indices and an index map covering the shape), converting to
SUM mode and back to REPLICA mode materializes to the same values as `X`
everywhere, and the result is in REPLICA mode; moreover, in the spec's
concrete scenario (shape `(4,)`, index map `{0:(0,3,1), 1:(1,4,1)}`,
`X = [1,2,3,4]`) the SUM-mode array holds `[1,0,0]` on device 0 and
`[2,3,4]` on device 1, and itself materializes to `X`. -/
theorem to_mode_roundtrip_spec (X : DistArr)
    (hmode : X.mode = Mode.REPLICA)
    (hwf : X.chunks.length = X.mapping.length)
    (hnorm : PairsNorm X.shape X.pairs)
    (hcov : ∀ c, inShape X.shape c = true → viewsAt X.pairs c ≠ []) :
    (∀ junk c, asnumpy (toReplicaMode (toSumMode X)) junk c
      = asnumpy X junk c)
    ∧ (toReplicaMode (toSumMode X)).mode = Mode.REPLICA
    ∧ ((toSumMode exC2).chunks.map
        (fun b => (List.range 3).map (fun i => b [(i : Int)]))
        = [[1, 0, 0], [2, 3, 4]])
    ∧ (toSumMode exC2).mode = Mode.SUM
    ∧ ((List.range 4).map
        (fun i => asnumpy (toSumMode exC2) (fun _ => 0) [(i : Int)])
        = [1, 2, 3, 4]) := by
  obtain ⟨hYpairs, hYmode, hYmap, hYshape, hYwf⟩ :=
    toSumMode_pairs X hmode hwf hnorm
  have hYnorm : PairsNorm (toSumMode X).shape (toSumMode X).pairs := by
    rw [hYpairs, hYshape]
    exact pairsNorm_of_map_snd_eq X.shape X.pairs (sumSweep X.shape X.pairs)
      (sumSweep_views X.shape X.pairs hnorm []).1 hnorm
  obtain ⟨hZpairs, hZmode⟩ :=
    toReplicaMode_pairs (toSumMode X) hYmode hYwf hYnorm
  refine ⟨?_, hZmode, by decide, by decide, by decide⟩
  intro junk c
  rw [asnumpy_replica (toReplicaMode (toSumMode X)) hZmode junk c,
    asnumpy_replica X hmode junk c, hZpairs]
  obtain ⟨-, hviews⟩ :=
    allReduceIntersections_views (toSumMode X).shape (toSumMode X).pairs
      hYnorm c
  rw [hviews, hYpairs]
  obtain ⟨-, hlen, hsum⟩ := sumSweep_views X.shape X.pairs hnorm c
  rw [hlen, hsum]
  cases hv : viewsAt X.pairs c with
  | nil => simp
  | cons a t =>
    rw [List.length_cons, getLastD_replicate,
      getLastD_irrel (a :: t) (by simp) 0 (junk c)]

theorem to_mode_roundtrip_spec_witness :
    asnumpy (toReplicaMode (toSumMode exC2)) (fun _ => 7) [2]
      = asnumpy exC2 (fun _ => 7) [2] := by
  have hnorm : PairsNorm exC2.shape exC2.pairs := by
    have hpairs : exC2.pairs
        = [(listBuf1 [1, 2, 3], [Slice.mk 0 3 1]),
           (listBuf1 [2, 3, 4], [Slice.mk 1 4 1])] := rfl
    rw [hpairs]
    intro p hp
    rw [List.mem_cons, List.mem_cons] at hp
    rcases hp with h | h | h
    · rw [h]; decide
    · rw [h]; decide
    · exact absurd h (List.not_mem_nil p)
  have hcov : ∀ c, inShape exC2.shape c = true → viewsAt exC2.pairs c ≠ [] := by
    intro c hc
    match c with
    | [] => exact absurd hc (by decide)
    | x :: y :: t => exact absurd hc (by simp [inShape, exC2])
    | [x] =>
      have hb : 0 ≤ x ∧ x < 4 := by
        have : ((0 ≤ x && x < (4 : Int)) && true) = true := hc
        simp only [Bool.and_true, Bool.and_eq_true, decide_eq_true_eq] at this
        exact this
      have hpairs : exC2.pairs
          = [(listBuf1 [1, 2, 3], [Slice.mk 0 3 1]),
             (listBuf1 [2, 3, 4], [Slice.mk 1 4 1])] := rfl
      rw [hpairs, viewsAt_cons, viewsAt_cons]
      by_cases h3 : x < 3
      · have hm : memIdx [Slice.mk 0 3 1] [x] = true := by
          show (Slice.containsB ⟨0, 3, 1⟩ x && true) = true
          unfold Slice.containsB
          simp only [Bool.and_true, Bool.and_eq_true, decide_eq_true_eq,
            beq_iff_eq]
          refine ⟨⟨hb.1, h3⟩, ?_⟩
          simp [Int.emod_one]
        rw [if_pos hm]
        simp
      · have hm : memIdx [Slice.mk 1 4 1] [x] = true := by
          show (Slice.containsB ⟨1, 4, 1⟩ x && true) = true
          unfold Slice.containsB
          simp only [Bool.and_true, Bool.and_eq_true, decide_eq_true_eq,
            beq_iff_eq]
          refine ⟨⟨by omega, hb.2⟩, ?_⟩
          simp [Int.emod_one]
        rw [if_pos hm]
        cases hfirst : memIdx [Slice.mk 0 3 1] [x] <;> simp
  exact (to_mode_roundtrip_spec exC2 rfl rfl hnorm hcov).1 (fun _ => 7) [2]

/-! ### The Python-level index arguments: `_convert_chunk_idx_to_slices` -/

/-- The kinds of Python exception raised by the embedded code. -/
inductive PyErr
  | indexError
  | valueError
  | typeError
  | runtimeError
deriving DecidableEq, Repr

/-- A Python `slice` object: any of the three fields may be `None`. -/
structure PySlice where
  start? : Option Int
  stop? : Option Int
  step? : Option Int
deriving DecidableEq, Repr

/-- One component of an index argument: an integer or a slice. -/
inductive IdxItem
  | int (k : Int)
  | slc (s : PySlice)
deriving DecidableEq, Repr

/-- CPython `slice.indices(length)`: defaults and clamping
(`ValueError` on a zero step). -/
def pyIndices (s : PySlice) (length : Nat) : Except PyErr (Int × Int × Int) :=
  let n : Int := (length : Int)
  let step := s.step?.getD 1
  if step = 0 then Except.error PyErr.valueError
  else
    let lower : Int := if step < 0 then -1 else 0
    let upper : Int := if step < 0 then n - 1 else n
    let start :=
      match s.start? with
      | none => if step < 0 then upper else lower
      | some v => if v < 0 then max (v + n) lower else min v upper
    let stop :=
      match s.stop? with
      | none => if step < 0 then lower else upper
      | some v => if v < 0 then max (v + n) lower else min v upper
    Except.ok (start, stop, step)

/-- The per-axis body of the loop of `_convert_chunk_idx_to_slices`. -/
def convertItem (dim : Nat) : IdxItem → Except PyErr Slice
  | IdxItem.int k =>
    if (dim : Int) ≤ k then Except.error PyErr.indexError
    else Except.ok ⟨k, k + 1, 1⟩
  | IdxItem.slc s =>
    match pyIndices s dim with
    | Except.error e => Except.error e
    | Except.ok (start, stop, step) =>
      if step < 0 then Except.error PyErr.valueError
      else if start = stop then Except.error PyErr.valueError
      else Except.ok ⟨start, stop, step⟩

/-- The loop of `_convert_chunk_idx_to_slices` over the padded index tuple
(the first failing axis raises). -/
def convertList : List Nat → List IdxItem → Except PyErr (List Slice)
  | [], _ => Except.ok []
  | _ :: _, [] => Except.ok []
  | dim :: shape, it :: idx =>
    match convertItem dim it with
    | Except.error e => Except.error e
    | Except.ok s =>
      match convertList shape idx with
      | Except.error e => Except.error e
      | Except.ok rest => Except.ok (s :: rest)

/-- `slice(None)`: the full slice used to pad trailing dimensions. -/
def fullSlice : IdxItem := IdxItem.slc ⟨none, none, none⟩

/-- `_convert_chunk_idx_to_slices(shape, idx)` (the caller has already
wrapped a lone integer or slice into a 1-tuple). -/
def convertChunkIdxToSlices (shape : List Nat) (idx : List IdxItem) :
    Except PyErr (List Slice) :=
  if shape.length < idx.length then Except.error PyErr.indexError
  else convertList shape
    (idx ++ List.replicate (shape.length - idx.length) fullSlice)

theorem convertList_length (shape : List Nat) (idx : List IdxItem)
    (hlen : idx.length = shape.length) :
    ∀ out, convertList shape idx = Except.ok out →
      out.length = shape.length := by
  induction shape generalizing idx with
  | nil =>
    cases idx with
    | nil => intro out h; cases h; rfl
    | cons it rest => simp at hlen
  | cons dim shape2 ih =>
    cases idx with
    | nil => simp at hlen
    | cons it rest =>
      intro out h
      unfold convertList at h
      cases hi : convertItem dim it with
      | error e => rw [hi] at h; cases h
      | ok s =>
        rw [hi] at h
        cases hr : convertList shape2 rest with
        | error e => rw [hr] at h; cases h
        | ok out2 =>
          rw [hr] at h
          cases h
          have : rest.length = shape2.length := by
            simpa using hlen
          simp [ih rest this out2 hr]

theorem convertItem_int (dim : Nat) (k : Int) :
    convertItem dim (IdxItem.int k)
      = if (dim : Int) ≤ k then Except.error PyErr.indexError
        else Except.ok ⟨k, k + 1, 1⟩ := rfl

theorem convertItem_slc (dim : Nat) (s : PySlice) :
    convertItem dim (IdxItem.slc s)
      = match pyIndices s dim with
        | Except.error e => Except.error e
        | Except.ok (start, stop, step) =>
          if step < 0 then Except.error PyErr.valueError
          else if start = stop then Except.error PyErr.valueError
          else Except.ok ⟨start, stop, step⟩ := rfl

theorem pyIndices_error (s : PySlice) (length : Nat) (e : PyErr)
    (h : pyIndices s length = Except.error e) : e = PyErr.valueError := by
  simp only [pyIndices] at h
  split at h
  · cases h; rfl
  · exact Except.noConfusion h

theorem pyIndices_ok_step (s : PySlice) (length : Nat)
    (start stop step : Int)
    (h : pyIndices s length = Except.ok (start, stop, step)) :
    step = s.step?.getD 1 := by
  simp only [pyIndices] at h
  split at h
  · exact Except.noConfusion h
  · cases h; rfl

theorem convertItem_error_kind (dim : Nat) (it : IdxItem) (e : PyErr)
    (h : convertItem dim it = Except.error e) :
    e = PyErr.indexError ∨ e = PyErr.valueError := by
  cases it with
  | int k =>
    rw [convertItem_int] at h
    by_cases hk : (dim : Int) ≤ k
    · rw [if_pos hk] at h; cases h; exact Or.inl rfl
    · rw [if_neg hk] at h; exact Except.noConfusion h
  | slc s =>
    rw [convertItem_slc] at h
    cases hp : pyIndices s dim with
    | error e2 =>
      rw [hp] at h
      cases h
      exact Or.inr (pyIndices_error s dim e hp)
    | ok triple =>
      obtain ⟨start, stop, step⟩ := triple
      rw [hp] at h
      simp only at h
      by_cases hn : step < 0
      · rw [if_pos hn] at h; cases h; exact Or.inr rfl
      · rw [if_neg hn] at h
        by_cases he : start = stop
        · rw [if_pos he] at h; cases h; exact Or.inr rfl
        · rw [if_neg he] at h; exact Except.noConfusion h

theorem convertList_error_kind (shape : List Nat) (idx : List IdxItem)
    (e : PyErr) (h : convertList shape idx = Except.error e) :
    e = PyErr.indexError ∨ e = PyErr.valueError := by
  induction shape generalizing idx with
  | nil => cases h
  | cons dim shape2 ih =>
    cases idx with
    | nil => cases h
    | cons it rest =>
      unfold convertList at h
      cases hi : convertItem dim it with
      | error e2 =>
        rw [hi] at h
        cases h
        exact convertItem_error_kind dim it e hi
      | ok s =>
        rw [hi] at h
        cases hr : convertList shape2 rest with
        | error e2 =>
          rw [hr] at h
          cases h
          exact ih rest hr
        | ok out2 => rw [hr] at h; cases h

/-- C8 (amended): `_convert_chunk_idx_to_slices` raises `IndexError` for too
many indices and for an integer `k ≥ shape[i]`; it raises `ValueError` (not
`IndexError`) for zero or negative slice steps and for slices whose
normalized bounds satisfy `start = stop`; a negative integer is not
range-checked and becomes the unit-length slice `(k, k+1, 1)`; every error
it raises is an `IndexError` or a `ValueError`; on success it returns one
slice per dimension of the shape. -/
theorem convertChunkIdxToSlices_spec (shape : List Nat) (idx : List IdxItem) :
    (shape.length < idx.length →
      convertChunkIdxToSlices shape idx = Except.error PyErr.indexError)
    ∧ (∀ (dim : Nat) (k : Int),
        (convertItem dim (IdxItem.int k) = Except.error PyErr.indexError
          ↔ (dim : Int) ≤ k)
        ∧ (k < (dim : Int) →
          convertItem dim (IdxItem.int k) = Except.ok ⟨k, k + 1, 1⟩))
    ∧ (∀ (dim : Nat) (s : PySlice), s.step?.getD 1 ≤ 0 →
        convertItem dim (IdxItem.slc s) = Except.error PyErr.valueError)
    ∧ (∀ (dim : Nat) (s : PySlice) (start stop step : Int),
        pyIndices s dim = Except.ok (start, stop, step) → 0 < step →
        start = stop →
        convertItem dim (IdxItem.slc s) = Except.error PyErr.valueError)
    ∧ (∀ out, convertChunkIdxToSlices shape idx = Except.ok out →
        out.length = shape.length)
    ∧ (∀ e, convertChunkIdxToSlices shape idx = Except.error e →
        e = PyErr.indexError ∨ e = PyErr.valueError) := by
  refine ⟨?_, ?_, ?_, ?_, ?_, ?_⟩
  · intro hlt
    unfold convertChunkIdxToSlices
    rw [if_pos hlt]
  · intro dim k
    constructor
    · constructor
      · intro h
        rw [convertItem_int] at h
        by_cases hk : (dim : Int) ≤ k
        · exact hk
        · rw [if_neg hk] at h; exact Except.noConfusion h
      · intro hk
        rw [convertItem_int, if_pos hk]
    · intro hk
      rw [convertItem_int, if_neg (by omega)]
  · intro dim s hz
    rw [convertItem_slc]
    rcases lt_or_eq_of_le hz with hlt | heq
    · cases hp : pyIndices s dim with
      | error e2 =>
        rw [pyIndices_error s dim e2 hp]
      | ok triple =>
        obtain ⟨start, stop, step⟩ := triple
        have hs := pyIndices_ok_step s dim start stop step hp
        show (if step < 0 then Except.error PyErr.valueError
          else if start = stop then Except.error PyErr.valueError
          else Except.ok (Slice.mk start stop step))
          = Except.error PyErr.valueError
        rw [if_pos (by omega)]
    · have hp : pyIndices s dim = Except.error PyErr.valueError := by
        simp only [pyIndices]
        rw [if_pos heq]
      rw [hp]
  · intro dim s start stop step hp hpos he
    rw [convertItem_slc, hp]
    show (if step < 0 then Except.error PyErr.valueError
      else if start = stop then Except.error PyErr.valueError
      else Except.ok (Slice.mk start stop step))
      = Except.error PyErr.valueError
    rw [if_neg (by omega), if_pos he]
  · intro out h
    unfold convertChunkIdxToSlices at h
    by_cases hlt : shape.length < idx.length
    · rw [if_pos hlt] at h; exact Except.noConfusion h
    · rw [if_neg hlt] at h
      refine convertList_length shape _ ?_ out h
      rw [List.length_append, List.length_replicate]
      omega
  · intro e h
    unfold convertChunkIdxToSlices at h
    by_cases hlt : shape.length < idx.length
    · rw [if_pos hlt] at h
      cases h
      exact Or.inl rfl
    · rw [if_neg hlt] at h
      exact convertList_error_kind shape _ e h

theorem convertChunkIdxToSlices_spec_witness :
    convertChunkIdxToSlices [4] [IdxItem.int 0, IdxItem.int 1]
      = Except.error PyErr.indexError :=
  (convertChunkIdxToSlices_spec [4] [IdxItem.int 0, IdxItem.int 1]).1
    (by decide)

/-- C8 counterexample to the claim as written: a negative slice step raises
`ValueError`, not `IndexError`; a negative out-of-bounds integer (here `-10`
on an axis of size 4) is not rejected at all but becomes the slice
`(-10, -9, 1)`; and the empty slice `3:1` survives the empty-range check and
is returned as `(3, 1, 1)`. -/
theorem convertChunkIdxToSlices_counterexample :
    convertChunkIdxToSlices [4] [IdxItem.slc ⟨none, none, some (-1)⟩]
      = Except.error PyErr.valueError
    ∧ PyErr.valueError ≠ PyErr.indexError
    ∧ convertChunkIdxToSlices [4] [IdxItem.int (-10)]
      = Except.ok [⟨-10, -9, 1⟩]
    ∧ convertChunkIdxToSlices [4] [IdxItem.slc ⟨some 3, some 1, none⟩]
      = Except.ok [⟨3, 1, 1⟩] := by
  refine ⟨rfl, by decide, rfl, rfl⟩

/-! ### `distributed_array`: construction from a host array -/

/-- A host memory: numbered cells each holding a buffer. -/
structure Heap where
  mem : Nat → Buf
  next : Nat

def Heap.write (h : Heap) (r : Nat) (b : Buf) : Heap :=
  { h with mem := fun r2 => if r2 = r then b else h.mem r2 }

def Heap.alloc (h : Heap) (b : Buf) : Heap × Nat :=
  ({ mem := fun r2 => if r2 = h.next then b else h.mem r2,
     next := h.next + 1 }, h.next)

/-- The chunk-extraction loop of `distributed_array`: read each chunk out of
the host array (`array[chunk_idx]`), and in SUM mode zero the region just
extracted before moving to the next device. Returns the device chunks and
the final contents of the host array. -/
def distributedArrayGo (src : Buf) :
    List (Nat × List Slice) → Mode → List Buf × Buf
  | [], _ => ([], src)
  | (_, cidx) :: rest, mode =>
    let chunk := getSlices src cidx
    let src2 := if mode = Mode.SUM then setSlices src cidx (fun _ => 0)
      else src
    let r := distributedArrayGo src2 rest mode
    (chunk :: r.1, r.2)

/-- Conversion of the whole `device_mapping` dict (first error raises). -/
def convertMapping (shape : List Nat) (dm : List (Nat × List IdxItem)) :
    Except PyErr (List (Nat × List Slice)) :=
  dm.mapM (fun p =>
    (convertChunkIdxToSlices shape p.2).map (fun s => (p.1, s)))

/-- `distributed_array(array, device_mapping, mode)` for an ndarray input
held in heap cell `arrayRef`: in SUM mode the array is first copied into a
fresh cell, then the mapping is converted, then the chunks are extracted
(with SUM-mode zeroing applied to the copy). -/
def distributedArray (h : Heap) (shape : List Nat) (arrayRef : Nat)
    (dm : List (Nat × List IdxItem)) (mode : Mode) :
    Heap × Except PyErr DistArr :=
  let hr : Heap × Nat :=
    if mode = Mode.SUM then h.alloc (h.mem arrayRef) else (h, arrayRef)
  match convertMapping shape dm with
  | Except.error e => (hr.1, Except.error e)
  | Except.ok mapping2 =>
    let r := distributedArrayGo (hr.1.mem hr.2) mapping2 mode
    let hFinal := if mode = Mode.SUM then hr.1.write hr.2 r.2 else hr.1
    (hFinal, Except.ok { shape := shape, mapping := mapping2,
                         chunks := r.1, mode := mode })

theorem distributedArrayGo_replica (m : List (Nat × List Slice)) :
    ∀ src : Buf, distributedArrayGo src m Mode.REPLICA
      = (m.map (fun p => getSlices src p.2), src) := by
  induction m with
  | nil => intro src; rfl
  | cons p rest ih =>
    intro src
    cases p with
    | mk dev cidx => simp [distributedArrayGo, ih]

theorem getLastD_const (v : Int) (l : List Int) :
    (∀ x ∈ l, x = v) → l ≠ [] → ∀ d, l.getLastD d = v := by
  induction l with
  | nil => intro _ hne; exact absurd rfl hne
  | cons a t ih =>
    intro h _ d
    rw [List.getLastD_cons]
    cases t with
    | nil => exact h a (by simp)
    | cons b t2 =>
      exact ih (fun x hx => h x (List.mem_cons_of_mem a hx)) (by simp) a

theorem viewsAt_getSlices_const (src : Buf) (shape : List Nat)
    (m : List (Nat × List Slice))
    (hnorm : ∀ p ∈ m, IdxNormalized p.2 shape) (c : List Int) :
    ∀ v ∈ viewsAt (m.map (fun p => (getSlices src p.2, p.2))) c, v = src c := by
  induction m with
  | nil => intro v hv; simp [viewsAt] at hv
  | cons p rest ih =>
    intro v hv
    rw [List.map_cons, viewsAt_cons] at hv
    have hrest : ∀ q ∈ rest, IdxNormalized q.2 shape :=
      fun q hq => hnorm q (List.mem_cons_of_mem p hq)
    by_cases hm : memIdx p.2 c = true
    · rw [if_pos hm] at hv
      rcases List.mem_cons.mp hv with h | h
      · rw [h]
        show src (toGlobalIdx p.2 (toLocalIdx p.2 c)) = src c
        rw [toGlobalIdx_toLocalIdx p.2 c
          (idxNormalized_steps p.2 shape (hnorm p (List.mem_cons_self p rest)))
          hm]
      · exact ih hrest v h
    · rw [if_neg hm] at hv
      exact ih hrest v hv

theorem distributedArray_replica (h : Heap) (shape : List Nat)
    (arrayRef : Nat) (dm : List (Nat × List IdxItem))
    (m2 : List (Nat × List Slice))
    (hm : convertMapping shape dm = Except.ok m2) :
    distributedArray h shape arrayRef dm Mode.REPLICA
      = (h, Except.ok
          { shape := shape, mapping := m2,
            chunks := m2.map (fun p => getSlices (h.mem arrayRef) p.2),
            mode := Mode.REPLICA }) := by
  unfold distributedArray
  rw [hm]
  show (h, Except.ok (DistArr.mk shape m2
      ((distributedArrayGo (h.mem arrayRef) m2 Mode.REPLICA).1)
      Mode.REPLICA))
    = (h, Except.ok (DistArr.mk shape m2
      (m2.map (fun p => getSlices (h.mem arrayRef) p.2))
      Mode.REPLICA))
  rw [distributedArrayGo_replica m2 (h.mem arrayRef)]

/-- C3: for every host buffer (heap cell `arrayRef`) and device mapping
whose conversion succeeds with normalized chunk indices that cover the
shape, the distributed array built in REPLICA mode materializes, at every
in-shape coordinate, to the host buffer's value there. -/
theorem distributed_array_materialize (h : Heap) (shape : List Nat)
    (arrayRef : Nat) (dm : List (Nat × List IdxItem))
    (h2 : Heap) (X : DistArr)
    (hrun : distributedArray h shape arrayRef dm Mode.REPLICA
      = (h2, Except.ok X))
    (hnorm : PairsNorm shape X.pairs)
    (hcov : ∀ c, inShape shape c = true → viewsAt X.pairs c ≠ [])
    (junk : Buf) (c : List Int) (hc : inShape shape c = true) :
    asnumpy X junk c = h.mem arrayRef c := by
  cases hm : convertMapping shape dm with
  | error e =>
    exfalso
    simp [distributedArray, hm] at hrun
  | ok m2 =>
    rw [distributedArray_replica h shape arrayRef dm m2 hm] at hrun
    have hX : X
        = { shape := shape, mapping := m2,
            chunks := m2.map (fun p => getSlices (h.mem arrayRef) p.2),
            mode := Mode.REPLICA } := by
      have := congrArg Prod.snd hrun
      simp only at this
      exact (Except.ok.inj this).symm
    have hpairs : X.pairs
        = m2.map (fun p => (getSlices (h.mem arrayRef) p.2, p.2)) := by
      rw [hX]
      show (m2.map (fun p => getSlices (h.mem arrayRef) p.2)).zip
        (m2.map Prod.snd) = _
      rw [List.zip_map']
    have hmode : X.mode = Mode.REPLICA := by rw [hX]
    rw [asnumpy_replica X hmode junk c, hpairs]
    refine getLastD_const (h.mem arrayRef c) _ ?_ ?_ (junk c)
    · refine viewsAt_getSlices_const (h.mem arrayRef) shape m2 ?_ c
      intro p hp
      have : (getSlices (h.mem arrayRef) p.2, p.2) ∈ X.pairs := by
        rw [hpairs]
        exact List.mem_map.mpr ⟨p, hp, rfl⟩
      exact hnorm _ this
    · rw [← hpairs]
      exact hcov c hc

def dmEx : List (Nat × List IdxItem) := [(0, [IdxItem.slc ⟨none, none, none⟩])]

def hEx : Heap := { mem := fun _ => listBuf1 [5, 6, 7, 8], next := 1 }

def XEx : DistArr :=
  { shape := [4], mapping := [(0, [⟨0, 4, 1⟩])],
    chunks := [getSlices (hEx.mem 0) [⟨0, 4, 1⟩]], mode := Mode.REPLICA }

theorem distributed_array_materialize_witness :
    asnumpy XEx (fun _ => 9) [2] = hEx.mem 0 [2] := by
  have hnorm : PairsNorm [4] XEx.pairs := by
    intro p hp
    have hp2 : p = (getSlices (hEx.mem 0) [⟨0, 4, 1⟩], [Slice.mk 0 4 1]) := by
      simpa [XEx, DistArr.pairs] using hp
    rw [hp2]
    decide
  have hcov : ∀ c, inShape [4] c = true → viewsAt XEx.pairs c ≠ [] := by
    intro c hc
    match c with
    | [] => exact absurd hc (by decide)
    | x :: y :: t => exact absurd hc (by simp [inShape])
    | [x] =>
      have hb : 0 ≤ x ∧ x < 4 := by
        have : ((0 ≤ x && x < (4 : Int)) && true) = true := hc
        simp only [Bool.and_true, Bool.and_eq_true, decide_eq_true_eq] at this
        exact this
      have hpairs : XEx.pairs
          = [(getSlices (hEx.mem 0) [⟨0, 4, 1⟩], [Slice.mk 0 4 1])] := rfl
      rw [hpairs, viewsAt_cons]
      have hm : memIdx [Slice.mk 0 4 1] [x] = true := by
        show (Slice.containsB ⟨0, 4, 1⟩ x && true) = true
        unfold Slice.containsB
        simp only [Bool.and_true, Bool.and_eq_true, decide_eq_true_eq,
          beq_iff_eq]
        exact ⟨⟨hb.1, hb.2⟩, by simp [Int.emod_one]⟩
      rw [if_pos hm]
      simp
  exact distributed_array_materialize hEx [4] 0 dmEx hEx XEx rfl hnorm hcov
    (fun _ => 9) [2] (by decide)

/-- C10: `distributed_array` never mutates the host array: for any heap and
any valid reference to the host array, the heap cell holding the array is
unchanged by the call in either mode (in SUM mode the zeroing of extracted
regions happens on a freshly allocated private copy), and in REPLICA mode
the heap is untouched entirely. -/
theorem distributedArray_frame (h : Heap) (shape : List Nat) (arrayRef : Nat)
    (dm : List (Nat × List IdxItem)) (mode : Mode)
    (href : arrayRef < h.next) :
    (distributedArray h shape arrayRef dm mode).1.mem arrayRef
      = h.mem arrayRef
    ∧ (mode = Mode.REPLICA →
        (distributedArray h shape arrayRef dm mode).1 = h) := by
  cases mode with
  | REPLICA =>
    have heq : (distributedArray h shape arrayRef dm Mode.REPLICA).1 = h := by
      cases hm : convertMapping shape dm with
      | error e => simp [distributedArray, hm]
      | ok m2 => simp [distributedArray, hm]
    exact ⟨by rw [heq], fun _ => heq⟩
  | SUM =>
    have hne : ¬ (arrayRef = h.next) := by omega
    refine ⟨?_, fun hcon => Mode.noConfusion hcon⟩
    cases hm : convertMapping shape dm with
    | error e =>
      simp only [distributedArray, hm]
      show (if Mode.SUM = Mode.SUM then h.alloc (h.mem arrayRef)
        else (h, arrayRef)).1.mem arrayRef = h.mem arrayRef
      rw [if_pos rfl]
      show (if arrayRef = h.next then h.mem arrayRef
        else h.mem arrayRef) = h.mem arrayRef
      rw [if_neg hne]
    | ok m2 =>
      simp only [distributedArray, hm]
      show ((h.alloc (h.mem arrayRef)).1.write (h.alloc (h.mem arrayRef)).2
        ((distributedArrayGo ((h.alloc (h.mem arrayRef)).1.mem
          (h.alloc (h.mem arrayRef)).2) m2 Mode.SUM).2)).mem arrayRef
        = h.mem arrayRef
      show (fun r2 => if r2 = h.next
        then (distributedArrayGo ((h.alloc (h.mem arrayRef)).1.mem
          (h.alloc (h.mem arrayRef)).2) m2 Mode.SUM).2
        else (h.alloc (h.mem arrayRef)).1.mem r2) arrayRef = h.mem arrayRef
      show (if arrayRef = h.next
        then (distributedArrayGo ((h.alloc (h.mem arrayRef)).1.mem
          (h.alloc (h.mem arrayRef)).2) m2 Mode.SUM).2
        else (h.alloc (h.mem arrayRef)).1.mem arrayRef) = h.mem arrayRef
      rw [if_neg hne]
      show (if arrayRef = h.next then h.mem arrayRef
        else h.mem arrayRef) = h.mem arrayRef
      rw [if_neg hne]

theorem distributedArray_frame_witness :
    (distributedArray hEx [4] 0 dmEx Mode.SUM).1.mem 0 = hEx.mem 0 :=
  (distributedArray_frame hEx [4] 0 dmEx Mode.SUM (by decide)).1

/-! ### The element-wise executor's operand check (`_elementwise._execute`) -/

/-- Whether an operand is a `DistributedArray` or a regular array. -/
inductive ArgKind
  | distributed
  | regular
deriving DecidableEq, Repr

/-- The operand loop at the top of `_execute`: raise on the first operand
that is not a distributed array. -/
def executeGuard : List ArgKind → Except PyErr Unit
  | [] => Except.ok ()
  | ArgKind.distributed :: rest => executeGuard rest
  | ArgKind.regular :: _ => Except.error PyErr.runtimeError

/-- C9 (amended): mixing a distributed array with a non-distributed one
makes the element-wise executor raise `RuntimeError`, not `TypeError` (the
same holds with no distributed operand at all: any non-distributed operand
raises), and the check passes exactly when every operand is distributed. -/
theorem executeGuard_spec (args : List ArgKind) :
    (ArgKind.regular ∈ args →
      executeGuard args = Except.error PyErr.runtimeError)
    ∧ (executeGuard args = Except.ok ()
      ↔ ∀ a ∈ args, a = ArgKind.distributed) := by
  induction args with
  | nil => exact ⟨fun h => absurd h (List.not_mem_nil _), by simp [executeGuard]⟩
  | cons a rest ih =>
    cases a with
    | distributed =>
      constructor
      · intro hmem
        have : ArgKind.regular ∈ rest := by
          rcases List.mem_cons.mp hmem with h | h
          · exact absurd h (by simp)
          · exact h
        show executeGuard rest = Except.error PyErr.runtimeError
        exact ih.1 this
      · constructor
        · intro h a2 ha2
          rcases List.mem_cons.mp ha2 with h2 | h2
          · rw [h2]
          · exact ih.2.mp h a2 h2
        · intro h
          show executeGuard rest = Except.ok ()
          exact ih.2.mpr (fun a2 ha2 => h a2 (List.mem_cons_of_mem _ ha2))
    | regular =>
      refine ⟨fun _ => rfl, ?_⟩
      constructor
      · intro h; exact absurd h (by simp [executeGuard])
      · intro h
        exact absurd (h ArgKind.regular (List.mem_cons_self _ _)) (by simp)

theorem executeGuard_spec_witness :
    executeGuard [ArgKind.distributed, ArgKind.regular]
      = Except.error PyErr.runtimeError :=
  (executeGuard_spec [ArgKind.distributed, ArgKind.regular]).1 (by decide)

/-- C9 counterexample to the claim as written: one distributed and one
regular operand raise `RuntimeError`, which is not the claimed
`TypeError`. -/
theorem executeGuard_counterexample :
    executeGuard [ArgKind.distributed, ArgKind.regular]
      = Except.error PyErr.runtimeError
    ∧ PyErr.runtimeError ≠ PyErr.typeError := by
  exact ⟨rfl, by decide⟩

/-! ### `reshard` -/

/-- `_DistributedArray.reshard(device_mapping)`: convert to REPLICA mode,
convert the new mapping, then fill each new chunk (starting from
uninitialized memory, modelled by `alloc`) by sending the intersection with
every old chunk in device order. -/
def reshard (alloc : Buf) (X : DistArr)
    (newDm : List (Nat × List IdxItem)) : Except PyErr DistArr :=
  match convertMapping (toReplicaMode X).shape newDm with
  | Except.error e => Except.error e
  | Except.ok newMapping =>
    Except.ok (DistArr.mk (toReplicaMode X).shape newMapping
      (newMapping.map (fun q =>
        (toReplicaMode X).pairs.foldl
          (fun dst p =>
            sendIntersection (toReplicaMode X).shape p.1 p.2 dst q.2)
          alloc))
      Mode.REPLICA)

theorem toReplicaMode_shape_mapping (X : DistArr) :
    (toReplicaMode X).shape = X.shape
    ∧ (toReplicaMode X).mapping = X.mapping := by
  unfold toReplicaMode
  by_cases h : X.mode = Mode.REPLICA
  · rw [if_pos h]; exact ⟨rfl, rfl⟩
  · rw [if_neg h]; exact ⟨rfl, rfl⟩

theorem toReplicaMode_facts (X : DistArr)
    (hwf : X.chunks.length = X.mapping.length)
    (hnorm : PairsNorm X.shape X.pairs) :
    (toReplicaMode X).mode = Mode.REPLICA
    ∧ (toReplicaMode X).chunks.length = (toReplicaMode X).mapping.length
    ∧ (toReplicaMode X).pairs.map Prod.snd = X.pairs.map Prod.snd
    ∧ PairsNorm X.shape (toReplicaMode X).pairs
    ∧ ∀ junk junk2 c, viewsAt X.pairs c ≠ [] →
        asnumpy (toReplicaMode X) junk c = asnumpy X junk2 c := by
  by_cases h : X.mode = Mode.REPLICA
  · have hid : toReplicaMode X = X := by
      unfold toReplicaMode
      rw [if_pos h]
    rw [hid]
    refine ⟨h, hwf, rfl, hnorm, ?_⟩
    intro junk junk2 c hne
    rw [asnumpy_replica X h junk c, asnumpy_replica X h junk2 c]
    exact getLastD_irrel _ hne _ _
  · have hmode : X.mode = Mode.SUM := by
      cases hx : X.mode
      · exact absurd hx h
      · rfl
    obtain ⟨hpairs, hrmode⟩ := toReplicaMode_pairs X hmode hwf hnorm
    have hsnd : (toReplicaMode X).pairs.map Prod.snd
        = X.pairs.map Prod.snd := by
      rw [hpairs]
      exact (allReduceIntersections_views X.shape X.pairs hnorm []).1
    have hlen : (toReplicaMode X).chunks.length
        = (toReplicaMode X).mapping.length := by
      have hpl : (toReplicaMode X).pairs.length = X.pairs.length := by
        have := congrArg List.length hsnd
        simpa using this
      have hc2 : (toReplicaMode X).chunks
          = (allReduceIntersections (fun x y => x + y) (some 0)
              X.shape X.pairs).map Prod.fst := by
        unfold toReplicaMode
        rw [if_neg h]
      rw [hc2, List.length_map, (toReplicaMode_shape_mapping X).2]
      have hal : (allReduceIntersections (fun x y => x + y) (some 0)
          X.shape X.pairs).length = X.pairs.length := by
        have := congrArg List.length
          (allReduceIntersections_views X.shape X.pairs hnorm []).1
        simpa using this
      rw [hal, pairs_length X hwf]
    refine ⟨hrmode, hlen, hsnd,
      pairsNorm_of_map_snd_eq X.shape X.pairs _ hsnd hnorm, ?_⟩
    intro junk junk2 c hne
    rw [asnumpy_replica (toReplicaMode X) hrmode junk c,
      asnumpy_sum X hmode junk2 c, hpairs,
      (allReduceIntersections_views X.shape X.pairs hnorm c).2]
    cases hv : viewsAt X.pairs c with
    | nil => exact absurd hv hne
    | cons a t =>
      rw [List.length_cons, getLastD_replicate]

theorem reshardChunk_view (shape : List Nat) (dstIdx : List Slice)
    (hdst : IdxNormalized dstIdx shape) (c : List Int)
    (hc : memIdx dstIdx c = true) :
    ∀ (oldPairs : List (Buf × List Slice)), PairsNorm shape oldPairs →
    ∀ init : Buf,
      (oldPairs.foldl
        (fun dst p => sendIntersection shape p.1 p.2 dst dstIdx) init)
        (toLocalIdx dstIdx c)
      = (viewsAt oldPairs c).getLastD (init (toLocalIdx dstIdx c)) := by
  intro oldPairs
  induction oldPairs with
  | nil => intro _ init; rfl
  | cons p rest ih =>
    intro hn init
    cases p with
    | mk srcChunk srcIdx =>
      have hsrcn : IdxNormalized srcIdx shape := hn (srcChunk, srcIdx) (by simp)
      have hrestn : PairsNorm shape rest := fun q hq => hn q (by simp [hq])
      show (rest.foldl (fun dst p => sendIntersection shape p.1 p.2 dst dstIdx)
        (sendIntersection shape srcChunk srcIdx init dstIdx))
        (toLocalIdx dstIdx c) = _
      rw [ih hrestn (sendIntersection shape srcChunk srcIdx init dstIdx),
        sendIntersection_view shape srcChunk init srcIdx dstIdx hsrcn hdst c hc,
        viewsAt_cons]
      cases hm : memIdx srcIdx c with
      | false =>
        rw [if_neg (by simp), if_neg (by simp)]
      | true =>
        rw [if_pos rfl, if_pos rfl, List.getLastD_cons]

theorem viewsAt_map_const (f : Nat × List Slice → Buf)
    (m : List (Nat × List Slice)) (c : List Int) (v : Int)
    (h : ∀ q ∈ m, memIdx q.2 c = true → f q (toLocalIdx q.2 c) = v) :
    ∀ x ∈ viewsAt (m.map (fun q => (f q, q.2))) c, x = v := by
  induction m with
  | nil => intro x hx; simp [viewsAt] at hx
  | cons q rest ih =>
    intro x hx
    rw [List.map_cons, viewsAt_cons] at hx
    have hrest : ∀ q2 ∈ rest, memIdx q2.2 c = true →
        f q2 (toLocalIdx q2.2 c) = v :=
      fun q2 hq2 => h q2 (List.mem_cons_of_mem q hq2)
    by_cases hm : memIdx q.2 c = true
    · rw [if_pos hm] at hx
      rcases List.mem_cons.mp hx with h2 | h2
      · rw [h2]
        exact h q (List.mem_cons_self q rest) hm
      · exact ih hrest x h2
    · rw [if_neg hm] at hx
      exact ih hrest x hx

theorem reshard_materialize (alloc : Buf) (X : DistArr)
    (newDm : List (Nat × List IdxItem)) (Y : DistArr)
    (hok : reshard alloc X newDm = Except.ok Y)
    (hwf : X.chunks.length = X.mapping.length)
    (hnorm : PairsNorm X.shape X.pairs)
    (hnormY : PairsNorm X.shape Y.pairs) :
    Y.mode = Mode.REPLICA
    ∧ Y.shape = X.shape
    ∧ Y.chunks.length = Y.mapping.length
    ∧ ∀ junk junk2 c, viewsAt X.pairs c ≠ [] → viewsAt Y.pairs c ≠ [] →
        asnumpy Y junk c = asnumpy X junk2 c := by
  obtain ⟨harrmode, harrwf, harrsnd, harrnorm, harrasn⟩ :=
    toReplicaMode_facts X hwf hnorm
  obtain ⟨harrshape, harrmap⟩ := toReplicaMode_shape_mapping X
  cases hm : convertMapping (toReplicaMode X).shape newDm with
  | error e =>
    exfalso
    unfold reshard at hok
    rw [hm] at hok
    exact Except.noConfusion hok
  | ok newMapping =>
    have hY : Y = DistArr.mk (toReplicaMode X).shape newMapping
        (newMapping.map (fun q =>
          (toReplicaMode X).pairs.foldl
            (fun dst p =>
              sendIntersection (toReplicaMode X).shape p.1 p.2 dst q.2)
            alloc))
        Mode.REPLICA := by
      unfold reshard at hok
      rw [hm] at hok
      exact (Except.ok.inj hok).symm
    have hYpairs : Y.pairs = newMapping.map (fun q =>
        ((toReplicaMode X).pairs.foldl
          (fun dst p =>
            sendIntersection (toReplicaMode X).shape p.1 p.2 dst q.2)
          alloc, q.2)) := by
      rw [hY]
      show (newMapping.map _).zip (newMapping.map Prod.snd) = _
      rw [List.zip_map']
    have hYmode : Y.mode = Mode.REPLICA := by rw [hY]
    have hYshape : Y.shape = X.shape := by rw [hY, harrshape]
    refine ⟨hYmode, hYshape, ?_, ?_⟩
    · rw [hY]
      show (newMapping.map _).length = newMapping.length
      rw [List.length_map]
    · intro junk junk2 c hcovX hcovY
      have hcovArr : viewsAt (toReplicaMode X).pairs c ≠ [] := by
        intro hnil
        apply hcovX
        rw [viewsAt_nil_iff_any] at hnil ⊢
        rw [← harrsnd]
        exact hnil
      have hval : ∀ q ∈ newMapping, memIdx q.2 c = true →
          ((toReplicaMode X).pairs.foldl
            (fun dst p =>
              sendIntersection (toReplicaMode X).shape p.1 p.2 dst q.2)
            alloc) (toLocalIdx q.2 c)
          = (viewsAt (toReplicaMode X).pairs c).getLastD 0 := by
        intro q hq hqm
        have hqn : IdxNormalized q.2 X.shape := by
          have : ((toReplicaMode X).pairs.foldl
              (fun dst p =>
                sendIntersection (toReplicaMode X).shape p.1 p.2 dst q.2)
              alloc, q.2) ∈ Y.pairs := by
            rw [hYpairs]
            exact List.mem_map.mpr ⟨q, hq, rfl⟩
          exact hnormY _ this
        rw [harrshape]
        rw [reshardChunk_view X.shape q.2 hqn c hqm
          (toReplicaMode X).pairs harrnorm alloc]
        exact getLastD_irrel _ hcovArr _ _
      have hall : ∀ x ∈ viewsAt Y.pairs c,
          x = (viewsAt (toReplicaMode X).pairs c).getLastD 0 := by
        intro x hx
        rw [hYpairs] at hx
        refine viewsAt_map_const _ newMapping c _ ?_ x hx
        intro q hq hqm
        exact hval q hq hqm
      rw [asnumpy_replica Y hYmode junk c,
        getLastD_const ((viewsAt (toReplicaMode X).pairs c).getLastD 0)
          (viewsAt Y.pairs c) hall hcovY (junk c)]
      have hmid : (viewsAt (toReplicaMode X).pairs c).getLastD 0
          = asnumpy (toReplicaMode X) junk2 c := by
        rw [asnumpy_replica (toReplicaMode X) harrmode junk2 c]
        exact getLastD_irrel _ hcovArr _ _
      rw [hmid]
      exact harrasn junk2 junk2 c hcovX

/-- C4: resharding twice (to any covering index map `M`, then to any
covering index map `M2`) materializes to the same values as the original
array at every in-shape coordinate, and every array returned by `reshard`
is in REPLICA mode. -/
theorem reshard_roundtrip_spec (alloc1 alloc2 : Buf) (X Y Z : DistArr)
    (M M2 : List (Nat × List IdxItem))
    (hok1 : reshard alloc1 X M = Except.ok Y)
    (hok2 : reshard alloc2 Y M2 = Except.ok Z)
    (hwf : X.chunks.length = X.mapping.length)
    (hnormX : PairsNorm X.shape X.pairs)
    (hnormY : PairsNorm X.shape Y.pairs)
    (hnormZ : PairsNorm X.shape Z.pairs)
    (hcovX : ∀ c, inShape X.shape c = true → viewsAt X.pairs c ≠ [])
    (hcovY : ∀ c, inShape X.shape c = true → viewsAt Y.pairs c ≠ [])
    (hcovZ : ∀ c, inShape X.shape c = true → viewsAt Z.pairs c ≠ []) :
    Y.mode = Mode.REPLICA ∧ Z.mode = Mode.REPLICA
    ∧ ∀ junk junk2 c, inShape X.shape c = true →
        asnumpy Z junk c = asnumpy X junk2 c := by
  obtain ⟨hYmode, hYshape, hYwf, hYasn⟩ :=
    reshard_materialize alloc1 X M Y hok1 hwf hnormX hnormY
  have hnormY2 : PairsNorm Y.shape Y.pairs := by rw [hYshape]; exact hnormY
  have hnormZ2 : PairsNorm Y.shape Z.pairs := by rw [hYshape]; exact hnormZ
  obtain ⟨hZmode, hZshape, hZwf, hZasn⟩ :=
    reshard_materialize alloc2 Y M2 Z hok2 hYwf hnormY2 hnormZ2
  refine ⟨hYmode, hZmode, ?_⟩
  intro junk junk2 c hc
  rw [hZasn junk junk c (hcovY c hc) (hcovZ c hc),
    hYasn junk junk2 c (hcovX c hc) (hcovY c hc)]

def YEx : DistArr := ((reshard (fun _ => 0) XEx dmEx).toOption).getD XEx

def ZEx : DistArr := ((reshard (fun _ => 1) YEx dmEx).toOption).getD XEx

theorem memIdx_full4 (x : Int) (h0 : 0 ≤ x) (h4 : x < 4) :
    memIdx [Slice.mk 0 4 1] [x] = true := by
  show (Slice.containsB ⟨0, 4, 1⟩ x && true) = true
  unfold Slice.containsB
  simp only [Bool.and_true, Bool.and_eq_true, decide_eq_true_eq, beq_iff_eq]
  exact ⟨⟨h0, h4⟩, by simp [Int.emod_one]⟩

theorem cov_full4 (pairs : List (Buf × List Slice))
    (hsnd : pairs.map Prod.snd = [[Slice.mk 0 4 1]]) :
    ∀ c, inShape [4] c = true → viewsAt pairs c ≠ [] := by
  intro c hc
  rw [Ne, viewsAt_nil_iff_any, hsnd]
  match c with
  | [] => exact absurd hc (by decide)
  | x :: y :: t => exact absurd hc (by simp [inShape])
  | [x] =>
    have hb : 0 ≤ x ∧ x < 4 := by
      have : ((0 ≤ x && x < (4 : Int)) && true) = true := hc
      simp only [Bool.and_true, Bool.and_eq_true, decide_eq_true_eq] at this
      exact this
    intro hfalse
    simp only [List.any_cons, List.any_nil, Bool.or_false] at hfalse
    rw [memIdx_full4 x hb.1 hb.2] at hfalse
    exact Bool.noConfusion hfalse

theorem norm_full4 (pairs : List (Buf × List Slice))
    (hsnd : pairs.map Prod.snd = [[Slice.mk 0 4 1]]) :
    PairsNorm [4] pairs := by
  intro p hp
  have : p.2 ∈ pairs.map Prod.snd := List.mem_map.mpr ⟨p, hp, rfl⟩
  rw [hsnd] at this
  have h2 : p.2 = [Slice.mk 0 4 1] := by simpa using this
  rw [h2]
  decide

theorem reshard_roundtrip_spec_witness :
    asnumpy ZEx (fun _ => 3) [1] = asnumpy XEx (fun _ => 5) [1] :=
  (reshard_roundtrip_spec (fun _ => 0) (fun _ => 1) XEx YEx ZEx dmEx dmEx
    rfl rfl rfl
    (norm_full4 XEx.pairs rfl) (norm_full4 YEx.pairs rfl)
    (norm_full4 ZEx.pairs rfl)
    (cov_full4 XEx.pairs rfl) (cov_full4 YEx.pairs rfl)
    (cov_full4 ZEx.pairs rfl)).2.2
    (fun _ => 3) (fun _ => 5) [1] (by decide)

/-! ### Sum reduction (`__cupy_override_reduction_kernel__` with `cupy_sum`) -/

/-- The number of elements selected by a normalized slice
(`(stop - start - 1) // step + 1`, as in `_shape_after_indexing`). -/
def Slice.count (s : Slice) : Nat := ((s.stop - s.start - 1) / s.step + 1).toNat

/-- `cupy.sum(chunk, axis=axis)` on a chunk-local buffer whose extent along
`axis` is `n`. -/
def sumAlongAxis (b : Buf) (axis : Nat) (n : Nat) : Buf :=
  fun c => ((List.range n).map
    (fun t => b (c.take axis ++ (t : Int) :: c.drop axis))).sum

/-- The `cupy_sum` branch of `__cupy_override_reduction_kernel__`: convert
the operand to SUM mode, sum every chunk along `axis`, drop `axis` from the
shape and from every chunk index, and return the result in SUM mode. -/
def reduceSum (X : DistArr) (axis : Nat) : DistArr :=
  DistArr.mk
    ((toSumMode X).shape.take axis ++ (toSumMode X).shape.drop (axis + 1))
    ((toSumMode X).mapping.map (fun p =>
      (p.1, p.2.take axis ++ p.2.drop (axis + 1))))
    ((toSumMode X).pairs.map (fun p =>
      sumAlongAxis p.1 axis (Slice.count (p.2.getD axis ⟨0, 1, 1⟩))))
    Mode.SUM

theorem toSumMode_shape_mapping (X : DistArr) :
    (toSumMode X).shape = X.shape ∧ (toSumMode X).mapping = X.mapping := by
  unfold toSumMode
  by_cases h : X.mode = Mode.SUM
  · rw [if_pos h]; exact ⟨rfl, rfl⟩
  · rw [if_neg h]; exact ⟨rfl, rfl⟩

/-- A two-dimensional buffer backed by a list of rows. -/
def listBuf2 (v : List (List Int)) : Buf :=
  fun c => (v.getD (c.headD 0).toNat []).getD (c.getD 1 0).toNat 0

/-- The spec's sum-mode reduction example: shape `(2,3)`, one device with
chunk index `((0,2,1),(0,3,1))`, values `[[1,2,3],[4,5,6]]`. -/
def exC6 : DistArr :=
  { shape := [2, 3]
  , mapping := [(0, [⟨0, 2, 1⟩, ⟨0, 3, 1⟩])]
  , chunks := [listBuf2 [[1, 2, 3], [4, 5, 6]]]
  , mode := Mode.REPLICA }

/-- C6: a sum reduction converts the operand to SUM mode and returns its
result in SUM mode, with the reduced axis dropped from the shape and from
every chunk index; in the spec's scenario (shape `(2,3)`, one device with
chunk index `((0,2,1),(0,3,1))`, `X = [[1,2,3],[4,5,6]]`, axis 1) the result
materializes to `[6, 15]`. -/
theorem reduceSum_spec (X : DistArr) (axis : Nat) :
    (reduceSum X axis).mode = Mode.SUM
    ∧ (reduceSum X axis).mapping
      = X.mapping.map (fun p => (p.1, p.2.take axis ++ p.2.drop (axis + 1)))
    ∧ (reduceSum X axis).shape
      = X.shape.take axis ++ X.shape.drop (axis + 1)
    ∧ ((List.range 2).map
        (fun i => asnumpy (reduceSum exC6 1) (fun _ => 0) [(i : Int)])
      = [6, 15]) := by
  refine ⟨rfl, ?_, ?_, by decide⟩
  · show ((toSumMode X).mapping.map
      (fun p => (p.1, p.2.take axis ++ p.2.drop (axis + 1)))) = _
    rw [(toSumMode_shape_mapping X).2]
  · show ((toSumMode X).shape.take axis
      ++ (toSumMode X).shape.drop (axis + 1)) = _
    rw [(toSumMode_shape_mapping X).1]

theorem reduceSum_spec_witness : (reduceSum exC6 1).mode = Mode.SUM :=
  (reduceSum_spec exC6 1).1
